import Mathlib

/-!
# Verification of the `yas` StarRail repository scan controller

Shallow embedding of
`src/yas-starrail/src/scanner_controller/repository_layout/scan_logic.rs`.

The stateful Rust methods are modelled as pure Lean functions: the
environment (screen captures, input results, timers, the right-mouse-button
poll) is abstracted as oracles indexed by the order in which the code
consults them, `f64` quantities are modelled as `ℚ`, machine integers as
`ℕ`/`ℤ`, and fallible operations return `Option` or a result inductive.
-/

namespace Yas

/-! ## Pixels and the flag strip (`capture_flag` / `check_flag`)

`initial_flag : [Rgb<u8>; 50]` is modelled as a `List Rgb` of length 50.
Array indexing is modelled with an explicit bounds check returning `none`
where the Rust indexing would panic.
-/

/-- An 8-bit RGB pixel (`image::Rgb<u8>`); channels are naturals. -/
structure Rgb where
  r : ℕ
  g : ℕ
  b : ℕ
  deriving DecidableEq, Repr, Inhabited

/-- Modelled from the spec: `yas::utils::color_distance` (its source file is
not part of the packaged sources).  The spec describes the color distance as
the "sum of absolute channel differences". -/
def color_distance (a b : Rgb) : ℕ :=
  (max a.r b.r - min a.r b.r) + (max a.g b.g - min a.g b.g) +
    (max a.b b.b - min a.b b.b)

/-- The write loop of `capture_flag` (`for y in 0..height { flag[y] = im[y] }`):
`n` writes remain, the next write is at index `y`.  A write out of the bounds
of `arr` is the Rust panic, modelled as `none`. -/
def capture_flagAux (px : ℕ → Rgb) : ℕ → ℕ → List Rgb → Option (List Rgb)
  | 0, _, arr => some arr
  | n + 1, y, arr =>
      if y < arr.length then capture_flagAux px n (y + 1) (arr.set y (px y))
      else none

/-- `capture_flag`: start from `[Rgb([0,0,0]); 50]` and copy the captured
column `px` for `y ∈ [0, height)`. -/
def capture_flag (height : ℕ) (px : ℕ → Rgb) : Option (List Rgb) :=
  capture_flagAux px height 0 (List.replicate 50 ⟨0, 0, 0⟩)

/-- The scan loop of `check_flag`
(`for y in 0..height { if color_distance(initial[y], flag[y]) < 10 { return Ok } }`):
`some true` models `Ok(())`, `some false` models `Err("Flag changed")`,
`none` models an out-of-bounds panic. -/
def check_flagAux (initial flag : List Rgb) : ℕ → ℕ → Option Bool
  | 0, _ => some false
  | n + 1, y =>
      if hy : y < initial.length ∧ y < flag.length then
        if color_distance (initial.get ⟨y, hy.1⟩) (flag.get ⟨y, hy.2⟩) < 10 then
          some true
        else check_flagAux initial flag n (y + 1)
      else none

/-- `check_flag`: capture a fresh flag strip, then compare against the stored
`initial_flag` reference. -/
def check_flag (height : ℕ) (initial : List Rgb) (px : ℕ → Rgb) : Option Bool :=
  (capture_flag height px).bind fun flag => check_flagAux initial flag height 0

/-! ## The item-switch detector (`wait_until_switched`)

The pool scalar (`calc_pool`, an `f32`/`f64` quantity) is modelled as `ℚ`.
The environment is three oracles indexed by the loop iteration: `elapsed k`
is the millisecond reading of `now.elapsed()` at the `k`-th loop-head check,
`sample k` the pool scalar computed from the `k`-th capture, and
`succTime k` the second `now.elapsed()` reading taken inside the success
branch at iteration `k`.  The loop is driven by fuel; `fuelOut` is excluded
by hypothesis in every theorem. -/

/-- The threshold `0.000001` of `wait_until_switched`. -/
def eps : ℚ := 1 / 1000000

/-- The controller fields touched by `wait_until_switched`:
`pool`, `avg_switch_time`, `scanned_count`. -/
structure WaitSt where
  pool : ℚ
  avg_switch_time : ℚ
  scanned_count : ℕ
  deriving DecidableEq, Repr

/-- Outcome of `wait_until_switched`: `ok st j` models `Ok(())` returned from
iteration `j` with updated fields `st`; `timeout st` models the
`"Wait until switched failed"` error. -/
inductive WaitOut
  | ok (st : WaitSt) (iters : ℕ)
  | timeout (st : WaitSt)
  | fuelOut
  deriving DecidableEq, Repr

/-- The polling loop of `wait_until_switched` (non-cloud path), one
constructor case per Rust branch.  `diffFlag` is the local `diff_flag`; the
local `consecutive_time` is omitted because it is `0` whenever the
`else if diff_flag` branch is entered (it is reset on every differing sample
and the branch returns as soon as it reaches `1`). -/
def waitAux (maxWait : ℕ) (elapsed succTime : ℕ → ℕ) (sample : ℕ → ℚ) :
    ℕ → ℕ → WaitSt → Bool → WaitOut
  | 0, _, _, _ => .fuelOut
  | fuel + 1, k, st, diffFlag =>
      if maxWait ≤ elapsed k then .timeout st
      else
        let pool := sample k
        if eps < |pool - st.pool| then
          waitAux maxWait elapsed succTime sample fuel (k + 1)
            { st with pool := pool } true
        else if diffFlag then
          .ok { st with
                  avg_switch_time :=
                    (st.avg_switch_time * st.scanned_count + (succTime k : ℚ)) /
                      ((st.scanned_count : ℚ) + 1),
                  scanned_count := st.scanned_count + 1 } k
        else waitAux maxWait elapsed succTime sample fuel (k + 1) st diffFlag

/-- `wait_until_switched`: in cloud mode sleep and return `Ok(())` with no
state change; otherwise run the polling loop. -/
def wait_until_switched (isCloud : Bool) (maxWait : ℕ)
    (elapsed succTime : ℕ → ℕ) (sample : ℕ → ℚ) (fuel : ℕ) (st : WaitSt) :
    WaitOut :=
  if isCloud then .ok st 0
  else waitAux maxWait elapsed succTime sample fuel 0 st false

/-- The two-phase switch condition of the spec: before the budget elapses,
some polled sample differs from the stored value by more than `eps`
(the stored value is initially `p₀` and is overwritten by every differing
sample, so the first such sample differs from `p₀`), and a subsequent polled
sample differs from the then-stored value — the previous sample — by at most
`eps`. -/
def switchedSpec (maxWait : ℕ) (elapsed : ℕ → ℕ) (sample : ℕ → ℚ) (p₀ : ℚ) :
    Prop :=
  ∃ j, (∀ k ≤ j + 1, elapsed k < maxWait) ∧
    (∃ i ≤ j, eps < |sample i - p₀|) ∧ |sample (j + 1) - sample j| ≤ eps

/-! ## Scrolling (`ScrollResult`, `update_avg_row`, `estimate_scroll_length`,
`scroll_one_row`, `align_row`, `scroll_rows`)

The environment is three boolean oracles sharing one cursor `idx` that is
advanced once per loop iteration / wheel tick: `rmb idx` is the
`is_rmb_down()` poll, `flagOk idx` the result of `check_flag()` (`true` for
`Ok`), and `tickFail idx` whether the `mouse_scroll` call of the calibrated
batch path returns `Err`.  `scroll_rows` additionally returns a trace of the
actions it performed. -/

/-- `ScrollResult` (from `scroll_result.rs`, as consumed by `scan_logic.rs`). -/
inductive ScrollResult
  | timeLimitExceeded
  | interrupt
  | success
  | skip
  deriving DecidableEq, Repr

/-- The compile-time platform (`cfg!`/`#[cfg]` distinctions of the source). -/
inductive Platform
  | windows
  | linux
  | macos
  deriving DecidableEq, Repr

/-- The controller fields touched by scrolling:
`scrolled_rows`, `avg_scroll_one_row`. -/
structure ScrollSt where
  scrolled_rows : ℕ
  avg_scroll_one_row : ℚ
  deriving DecidableEq, Repr

/-- `update_avg_row`: fold one observed single-row tick count into the
cumulative average and bump `scrolled_rows`. -/
def update_avg_row (st : ScrollSt) (count : ℕ) : ScrollSt :=
  let current := st.avg_scroll_one_row * (st.scrolled_rows : ℚ) + (count : ℚ)
  let rows := st.scrolled_rows + 1
  { scrolled_rows := rows, avg_scroll_one_row := current / (rows : ℚ) }

/-- `f64::round` on the values the code feeds it: round half away from zero. -/
def rustRound (x : ℚ) : ℤ :=
  if 0 ≤ x then ⌊x + 1 / 2⌋ else -⌊-x + 1 / 2⌋

/-- `estimate_scroll_length`:
`((avg_scroll_one_row * count as f64 - 3.0).round() as i32).max(0)`. -/
def estimate_scroll_length (st : ScrollSt) (count : ℤ) : ℤ :=
  max (rustRound (st.avg_scroll_one_row * (count : ℚ) - 3)) 0

/-- The scroll environment oracles. -/
structure ScrollEnv where
  rmb : ℕ → Bool
  flagOk : ℕ → Bool
  tickFail : ℕ → Bool

/-- Outcome of `scroll_one_row`: the returned `ScrollResult` together with
the controller state and the oracle cursor afterwards; `success` also
carries the observed tick count. -/
inductive OneRowOut
  | success (count : ℕ) (st : ScrollSt) (idx : ℕ)
  | interrupt (st : ScrollSt) (idx : ℕ)
  | timeLimit (st : ScrollSt) (idx : ℕ)
  deriving DecidableEq, Repr

/-- The `while count < max_scroll` loop of `scroll_one_row`: `n` iterations
remain, `count` ticks issued so far, `state1` is `state == 1`.  Each
iteration polls `rmb`, issues one (ignored-result) wheel tick, sleeps,
increments `count` and consults `check_flag`. -/
def scroll_one_rowAux (env : ScrollEnv) :
    ℕ → ℕ → Bool → ℕ → ScrollSt → OneRowOut
  | 0, _, _, idx, st => .timeLimit st idx
  | n + 1, count, state1, idx, st =>
      if env.rmb idx then .interrupt st idx
      else
        let count := count + 1
        match state1, env.flagOk idx with
        | false, false => scroll_one_rowAux env n count true (idx + 1) st
        | true, true => .success count (update_avg_row st count) (idx + 1)
        | _, _ => scroll_one_rowAux env n count state1 (idx + 1) st

/-- `scroll_one_row`: `state = 0`, `count = 0`, `max_scroll = 25`. -/
def scroll_one_row (env : ScrollEnv) (idx : ℕ) (st : ScrollSt) : OneRowOut :=
  scroll_one_rowAux env 25 0 false idx st

/-- `align_row`: up to 10 times, if `check_flag` errs, scroll one tick and
sleep, else break.  Returns the number of corrective ticks issued and the
oracle cursor afterwards.  (The `mouse_scroll` here is the infallible
`Self::mouse_scroll` wrapper, not the checked call of the batch path.) -/
def align_rowAux (env : ScrollEnv) : ℕ → ℕ → ℕ × ℕ
  | 0, idx => (0, idx)
  | n + 1, idx =>
      if env.flagOk idx then (0, idx + 1)
      else
        let (t, i) := align_rowAux env n (idx + 1)
        (t + 1, i)

/-- `align_row` with its 10-attempt bound. -/
def align_row (env : ScrollEnv) (idx : ℕ) : ℕ × ℕ :=
  align_rowAux env 10 idx

/-- Trace events of `scroll_rows`. -/
inductive SEv
  | batchTick
  | batchSleep
  | alignRun
  | oneRowCall
  deriving DecidableEq, Repr

/-- The `for _ in 0..length` tick loop of the calibrated batch path:
each checked `mouse_scroll(1, false)` either fails (`tickFail`, leading to
`ScrollResult::Interrupt`) or emits a tick.  Returns the emitted trace,
whether a tick failed, and the cursor afterwards. -/
def batchLoop (env : ScrollEnv) : ℕ → ℕ → List SEv × Bool × ℕ
  | 0, idx => ([], false, idx)
  | n + 1, idx =>
      if env.tickFail idx then ([], true, idx + 1)
      else
        let (tr, f, i) := batchLoop env n (idx + 1)
        (.batchTick :: tr, f, i)

/-- Result of `scroll_rows`: the returned `ScrollResult`, the controller
state and oracle cursor afterwards, and the trace of performed actions. -/
structure ScrollRowsOut where
  result : ScrollResult
  st : ScrollSt
  idx : ℕ
  trace : List SEv
  deriving DecidableEq, Repr

/-- The `for _ in 0..count { scroll_one_row() }` fallback loop of
`scroll_rows` (Phase A): `Success`/`Skip` continue, `Interrupt` and
`TimeLimitExceeded` return immediately. -/
def phaseALoop (env : ScrollEnv) : ℕ → ℕ → ScrollSt → ScrollRowsOut
  | 0, idx, st => ⟨.success, st, idx, []⟩
  | k + 1, idx, st =>
      match scroll_one_row env idx st with
      | .success _ st' idx' =>
          let o := phaseALoop env k idx' st'
          { o with trace := .oneRowCall :: o.trace }
      | .interrupt st' idx' => ⟨.interrupt, st', idx', [.oneRowCall]⟩
      | .timeLimit st' idx' => ⟨.timeLimitExceeded, st', idx', [.oneRowCall]⟩

/-- `scroll_rows`: on a non-mac platform with `scrolled_rows >= 5`, take the
calibrated batch path (estimate the tick count, emit the ticks back-to-back,
sleep once, re-align, return `Skip`; a failed tick returns `Interrupt`);
otherwise perform `count` single-row Phase-A scrolls. -/
def scroll_rows (plat : Platform) (env : ScrollEnv) (count : ℕ) (idx : ℕ)
    (st : ScrollSt) : ScrollRowsOut :=
  if plat ≠ Platform.macos ∧ 5 ≤ st.scrolled_rows then
    let length := (estimate_scroll_length st (count : ℤ)).toNat
    match batchLoop env length idx with
    | (tr, true, idx') => ⟨.interrupt, st, idx', tr⟩
    | (tr, false, idx') =>
        let (_ticks, idx'') := align_row env idx'
        ⟨.skip, st, idx'', tr ++ [.batchSleep, .alignRun]⟩
  else phaseALoop env count idx st

/-! ## The scan iterator (`get_generator`)

The coroutine body is modelled as three nested loops producing a trace of
events (one `yieldCell` per `yield`, one `scrollCall` per `scroll_rows`
call) and an exit value.  The environment is three oracles, each with its
own call counter threaded through the state: `rmb n` is the `n`-th
`is_rmb_down()` poll, `scroll n` the result of the `n`-th `scroll_rows`
call, and `wait n` whether the `n`-th `wait_until_switched()` call succeeds
(its result is discarded by the coroutine, as in the source). -/

/-- `ReturnResult` of the coroutine. -/
inductive ReturnResult
  | interrupted
  | finished
  deriving DecidableEq, Repr

/-- Exit of the coroutine: `ok` models `Ok(_)`, `err` the
`Err(anyhow!("翻页超时…"))` from a scroll timeout; `fuelOut` is the fuel
guard, excluded by hypothesis in the theorems. -/
inductive GenExit
  | ok (r : ReturnResult)
  | err
  | fuelOut
  deriving DecidableEq, Repr

/-- Trace events of the coroutine. -/
inductive GenEvent
  | yieldCell (row col : ℕ)
  | scrollCall (rows : ℕ) (res : ScrollResult)
  deriving DecidableEq, Repr

/-- Oracles for the coroutine's interactions. -/
structure GenEnv where
  rmb : ℕ → Bool
  scroll : ℕ → ScrollResult
  wait : ℕ → Bool

/-- The grid/config parameters read by the coroutine. -/
structure GenParams where
  itemCount : ℕ
  col : ℕ
  row : ℕ
  maxRow : ℕ
  deriving DecidableEq, Repr

/-- `total_row = (item_count + col - 1) / col`. -/
def totalRow (p : GenParams) : ℕ := (p.itemCount + p.col - 1) / p.col

/-- `last_row_col`: `col` when `item_count % col == 0`, else
`item_count % col`. -/
def lastRowCol (p : GenParams) : ℕ :=
  if p.itemCount % p.col = 0 then p.col else p.itemCount % p.col

/-- The mutable locals of the coroutine plus the oracle call counters. -/
structure GenSt where
  scannedRow : ℕ
  scannedCount : ℕ
  startRow : ℕ
  polls : ℕ
  scrolls : ℕ
  waits : ℕ
  deriving DecidableEq, Repr

/-- The `'_col` loop: `n` cells remain in this row, the next is column `c` of
row `r`.  Each cell polls `is_rmb_down`, checks `scanned_count > item_count`,
moves/clicks, calls (and discards) `wait_until_switched`, yields, and
increments `scanned_count`.  `Sum.inl` is an early return from the coroutine,
`Sum.inr` the state after the row completes. -/
def runCols (p : GenParams) (env : GenEnv) (r : ℕ) :
    ℕ → ℕ → GenSt → List GenEvent × (GenExit ⊕ GenSt)
  | 0, _, st => ([], .inr st)
  | n + 1, c, st =>
      if env.rmb st.polls then ([], .inl (.ok .interrupted))
      else
        let st := { st with polls := st.polls + 1 }
        if p.itemCount < st.scannedCount then ([], .inl (.ok .finished))
        else
          let st := { st with waits := st.waits + 1 }
          let st := { st with scannedCount := st.scannedCount + 1 }
          let (tr, res) := runCols p env r n (c + 1) st
          (.yieldCell r c :: tr, res)

/-- The `'_row` loop: `n` visible rows remain, the next has index `r`.
The `Bool` in the `Sum.inr` result records whether the
`scanned_row >= max_row` check broke out of the outer loop. -/
def runRows (p : GenParams) (env : GenEnv) :
    ℕ → ℕ → GenSt → List GenEvent × (GenExit ⊕ (GenSt × Bool))
  | 0, _, st => ([], .inr (st, false))
  | n + 1, r, st =>
      let ric := if st.scannedRow = totalRow p - 1 then lastRowCol p else p.col
      match runCols p env r ric 0 st with
      | (tr, .inl e) => (tr, .inl e)
      | (tr, .inr st) =>
          let st := { st with scannedRow := st.scannedRow + 1 }
          if p.maxRow ≤ st.scannedRow then (tr, .inr (st, true))
          else
            let (tr', res) := runRows p env n (r + 1) st
            (tr ++ tr', res)

/-- The `'outer` loop: while `scanned_count < item_count`, walk the visible
rows from `start_row`, then compute the scroll target and call
`scroll_rows`, dispatching on its result.  A `max_row` break falls through
to `Ok(Finished)`. -/
def runOuter (p : GenParams) (env : GenEnv) :
    ℕ → GenSt → List GenEvent × GenExit
  | 0, _ => ([], .fuelOut)
  | fuel + 1, st =>
      if st.scannedCount < p.itemCount then
        let rowBound := min p.row (totalRow p)
        match runRows p env (rowBound - st.startRow) st.startRow st with
        | (tr, .inl e) => (tr, e)
        | (tr, .inr (_, true)) => (tr, .ok .finished)
        | (tr, .inr (st, false)) =>
            let remain := p.itemCount - st.scannedCount
            let remainRow := (remain + p.col - 1) / p.col
            let scrollRow := min remainRow p.row
            let st := { st with startRow := p.row - scrollRow }
            let res := env.scroll st.scrolls
            let st := { st with scrolls := st.scrolls + 1 }
            match res with
            | .timeLimitExceeded => (tr ++ [.scrollCall scrollRow res], .err)
            | .interrupt => (tr ++ [.scrollCall scrollRow res], .ok .interrupted)
            | _ =>
                let (tr', e) := runOuter p env fuel st
                (tr ++ .scrollCall scrollRow res :: tr', e)
      else ([], .ok .finished)

/-- The initial state of the coroutine locals and oracle counters. -/
def initSt : GenSt := ⟨0, 0, 0, 0, 0, 0⟩

/-- A full run of the coroutine produced by `get_generator(item_count)`. -/
def runGen (p : GenParams) (env : GenEnv) (fuel : ℕ) :
    List GenEvent × GenExit :=
  runOuter p env fuel initSt

/-- Number of cells the row walk yields when it scans `n` consecutive rows
starting at global row index `srow`: each row contributes `col` cells except
the final item row (`srow = totalRow - 1`), which contributes `lastRowCol`. -/
def rowsYield (p : GenParams) : ℕ → ℕ → ℕ
  | _, 0 => 0
  | srow, n + 1 =>
      (if srow = totalRow p - 1 then lastRowCol p else p.col) +
        rowsYield p (srow + 1) n

/-- Whether a trace event is a `yield`. -/
def isYieldEv : GenEvent → Bool
  | .yieldCell _ _ => true
  | .scrollCall _ _ => false

/-- Number of yields in a trace. -/
def countYields (tr : List GenEvent) : ℕ := tr.countP isYieldEv

/-! ## Lemmas about the flag strip -/

/-- The default black pixel. -/
def blackPx : Rgb := ⟨0, 0, 0⟩

/-- `calc_pool` (scan_logic.rs): sum the red channel (`row[i * 3]`) of every
pixel of a raw RGB byte row.  The `f32` accumulator starts at `0.0` and adds
small nonnegative integers exactly, so the result is the integer-valued sum,
modelled as the cast of the natural-number sum. -/
def calc_pool (row : List ℕ) : ℚ :=
  (((List.range (row.length / 3)).map (fun i => row.getD (i * 3) 0)).sum : ℚ)

theorem capture_flagAux_spec (px : ℕ → Rgb) :
    ∀ (n y : ℕ) (arr : List Rgb), y + n ≤ arr.length →
      ∃ out, capture_flagAux px n y arr = some out ∧
        out.length = arr.length ∧
        ∀ i, out[i]? = if y ≤ i ∧ i < y + n then some (px i) else arr[i]? := by
  intro n
  induction n with
  | zero =>
      intro y arr _
      refine ⟨arr, rfl, rfl, fun i => ?_⟩
      have h : ¬(y ≤ i ∧ i < y + 0) := by omega
      rw [if_neg h]
  | succ n ih =>
      intro y arr hle
      have hy : y < arr.length := by omega
      have hlen : y + 1 + n ≤ (arr.set y (px y)).length := by
        simp [List.length_set]; omega
      obtain ⟨out, hout, houtlen, hget⟩ := ih (y + 1) (arr.set y (px y)) hlen
      refine ⟨out, by simp [capture_flagAux, hy, hout],
        by simpa [List.length_set] using houtlen, fun i => ?_⟩
      rw [hget i]
      by_cases h1 : y ≤ i ∧ i < y + (n + 1)
      · by_cases h2 : i = y
        · have hn : ¬(y + 1 ≤ i ∧ i < y + 1 + n) := by omega
          simp [hn, h1, h2, List.getElem?_set_self hy]
        · have h3 : y + 1 ≤ i ∧ i < y + 1 + n := by omega
          simp [h3, h1]
      · have h3 : ¬(y + 1 ≤ i ∧ i < y + 1 + n) := by omega
        have h2 : y ≠ i := by omega
        simp [h3, h1, List.getElem?_set_ne h2]

/-- If any write lands out of bounds, `capture_flagAux` fails (the Rust
indexing panic).  Requires at least one remaining write. -/
theorem capture_flagAux_oob (px : ℕ → Rgb) :
    ∀ (n y : ℕ) (arr : List Rgb), arr.length < y + n → 1 ≤ n →
      capture_flagAux px n y arr = none := by
  intro n
  induction n with
  | zero => intro y arr _ h1; exact absurd h1 (by omega)
  | succ n ih =>
      intro y arr hlt _
      by_cases hy : y < arr.length
      · have h1 : 1 ≤ n := by omega
        have : (arr.set y (px y)).length < y + 1 + n := by
          simp [List.length_set]; omega
        simp [capture_flagAux, hy, ih (y + 1) _ this h1]
      · simp [capture_flagAux, hy]

theorem capture_flag_spec (height : ℕ) (px : ℕ → Rgb) (h50 : height ≤ 50) :
    ∃ out, capture_flag height px = some out ∧ out.length = 50 ∧
      ∀ i < height, out[i]? = some (px i) := by
  obtain ⟨out, hout, hlen, hget⟩ :=
    capture_flagAux_spec px height 0 (List.replicate 50 blackPx)
      (by simp [List.length_replicate]; omega)
  refine ⟨out, hout, by simpa using hlen, fun i hi => ?_⟩
  rw [hget i, if_pos (show 0 ≤ i ∧ i < 0 + height by omega)]

theorem capture_flag_oob (height : ℕ) (px : ℕ → Rgb) (h50 : 50 < height) :
    capture_flag height px = none :=
  capture_flagAux_oob px height 0 (List.replicate 50 blackPx)
    (by simp; omega) (by omega)

theorem check_flagAux_spec (initial flag : List Rgb) :
    ∀ (n y : ℕ), y + n ≤ initial.length → y + n ≤ flag.length →
      ∃ b, check_flagAux initial flag n y = some b ∧
        (b = true ↔ ∃ i, y ≤ i ∧ i < y + n ∧
          color_distance (initial.getD i blackPx) (flag.getD i blackPx) < 10) := by
  intro n
  induction n with
  | zero =>
      intro y _ _
      refine ⟨false, rfl, ?_⟩
      constructor
      · intro h; exact absurd h (by simp)
      · rintro ⟨i, h1, h2, _⟩; omega
  | succ n ih =>
      intro y hi hf
      have hy1 : y < initial.length := by omega
      have hy2 : y < flag.length := by omega
      have hy : y < initial.length ∧ y < flag.length := ⟨hy1, hy2⟩
      have hgi : initial.getD y blackPx = initial[y] := by
        simp [List.getD_eq_getElem?_getD, List.getElem?_eq_getElem hy1]
      have hgf : flag.getD y blackPx = flag[y] := by
        simp [List.getD_eq_getElem?_getD, List.getElem?_eq_getElem hy2]
      by_cases hd : color_distance initial[y] flag[y] < 10
      · refine ⟨true, ?_, ?_⟩
        · simp [check_flagAux, hy, List.get_eq_getElem, hd]
        · simp only [true_iff]
          exact ⟨y, le_refl y, by omega, by rw [hgi, hgf]; exact hd⟩
      · obtain ⟨b, hb, hiff⟩ := ih (y + 1) (by omega) (by omega)
        refine ⟨b, ?_, ?_⟩
        · simp [check_flagAux, hy, List.get_eq_getElem, hd, hb]
        · rw [hiff]
          constructor
          · rintro ⟨i, h1, h2, h3⟩; exact ⟨i, by omega, by omega, h3⟩
          · rintro ⟨i, h1, h2, h3⟩
            rcases eq_or_lt_of_le h1 with h4 | h4
            · subst h4
              rw [hgi, hgf] at h3
              exact absurd h3 hd
            · exact ⟨i, by omega, by omega, h3⟩

/-! ## Claims C5 and C9 -/

/-- **C5.** The flag-strip match (`check_flag` against the stored
`initial_flag` reference) reports "still aligned" (`Ok`, modelled
`some true`) iff some scanline index `y ∈ [0, flagRect.height)` has color
distance (sum of absolute per-channel differences) between the current
sample and the reference strictly below 10; otherwise it reports
"flag changed" (`Err`, modelled `some false`). -/
theorem check_flag_ok_iff (height : ℕ) (initial : List Rgb) (px : ℕ → Rgb)
    (h50 : height ≤ 50) (hlen : initial.length = 50) :
    check_flag height initial px = some true ↔
      ∃ y < height, color_distance (initial.getD y blackPx) (px y) < 10 := by
  obtain ⟨out, hout, holen, hget⟩ := capture_flag_spec height px h50
  obtain ⟨b, hb, hiff⟩ :=
    check_flagAux_spec initial out height 0 (by omega) (by omega)
  have hpx : ∀ i, i < height → out.getD i blackPx = px i := by
    intro i hi
    simp [List.getD_eq_getElem?_getD, hget i hi]
  unfold check_flag
  rw [hout]
  simp only [Option.some_bind]
  rw [hb, Option.some_inj, hiff]
  constructor
  · rintro ⟨i, _, h2, h3⟩
    exact ⟨i, by omega, by rwa [hpx i (by omega)] at h3⟩
  · rintro ⟨y, hy, h3⟩
    exact ⟨y, by omega, by omega, by rwa [hpx y hy]⟩

/-- Witness for C5 at a concrete input: a uniform black strip matches its own
reference. -/
theorem check_flag_ok_iff_witness :
    check_flag 2 (List.replicate 50 blackPx) (fun _ => blackPx) = some true :=
  (check_flag_ok_iff 2 (List.replicate 50 blackPx) (fun _ => blackPx)
      (by decide) (by simp)).mpr ⟨0, by decide, by decide⟩

/-- **C9.** With `flagRect.height ≤ 50` every access into the fixed
50-element flag arrays made by `capture_flag` and `check_flag` is in
bounds (no panic: the results are `some _`); the bound is tight: whenever
`flagRect.height > 50` some access is out of bounds (`none`). -/
theorem flag_access_bounds (height : ℕ) (initial : List Rgb) (px : ℕ → Rgb)
    (hlen : initial.length = 50) :
    (height ≤ 50 →
      (capture_flag height px).isSome = true ∧
        (check_flag height initial px).isSome = true) ∧
    (50 < height →
      capture_flag height px = none ∧ check_flag height initial px = none) := by
  constructor
  · intro h50
    obtain ⟨out, hout, holen, _⟩ := capture_flag_spec height px h50
    obtain ⟨b, hb, _⟩ :=
      check_flagAux_spec initial out height 0 (by omega) (by omega)
    refine ⟨by simp [hout], ?_⟩
    unfold check_flag
    rw [hout]
    simp [hb]
  · intro h50
    have hcap := capture_flag_oob height px h50
    exact ⟨hcap, by unfold check_flag; rw [hcap]; rfl⟩

/-- Witness for C9 at the boundary heights 50 and 51. -/
theorem flag_access_bounds_witness :
    ((capture_flag 50 (fun _ => blackPx)).isSome = true ∧
      (check_flag 50 (List.replicate 50 blackPx) (fun _ => blackPx)).isSome =
        true) ∧
    (capture_flag 51 (fun _ => blackPx) = none ∧
      check_flag 51 (List.replicate 50 blackPx) (fun _ => blackPx) = none) :=
  ⟨(flag_access_bounds 50 (List.replicate 50 blackPx) (fun _ => blackPx)
      (by simp)).1 (by decide),
   (flag_access_bounds 51 (List.replicate 50 blackPx) (fun _ => blackPx)
      (by simp)).2 (by decide)⟩

/-! ## Lemmas about `wait_until_switched`

The loop invariant: before any differing sample has been seen
(`diffFlag = false`) the stored pool is the initial one and every sample so
far was within `eps` of it; once `diffFlag = true`, some earlier sample
differed from the initial pool and the stored pool is the previous sample
(every non-matching sample overwrites it, and a matching sample returns). -/

theorem waitAux_ok_spec (mW : ℕ) (el sT : ℕ → ℕ) (s : ℕ → ℚ) (p₀ a₀ : ℚ)
    (c₀ : ℕ) :
    ∀ (fuel k : ℕ) (st : WaitSt) (flag : Bool) (st' : WaitSt) (j : ℕ),
      st.avg_switch_time = a₀ → st.scanned_count = c₀ →
      (flag = false → st.pool = p₀ ∧ ∀ i < k, |s i - p₀| ≤ eps) →
      (flag = true →
        (∃ i < k, eps < |s i - p₀|) ∧ 1 ≤ k ∧ st.pool = s (k - 1)) →
      waitAux mW el sT s fuel k st flag = .ok st' j →
      k ≤ j ∧ (∀ m ≤ j, k ≤ m → el m < mW) ∧ 1 ≤ j ∧
        (∃ i < j, eps < |s i - p₀|) ∧ |s j - s (j - 1)| ≤ eps ∧
        st'.pool = s (j - 1) ∧
        st'.avg_switch_time = (a₀ * (c₀ : ℚ) + (sT j : ℚ)) / ((c₀ : ℚ) + 1) ∧
        st'.scanned_count = c₀ + 1 := by
  intro fuel
  induction fuel with
  | zero => intro k st flag st' j _ _ _ _ h; exact absurd h (by simp [waitAux])
  | succ fuel ih =>
      intro k st flag st' j ha hc hF hT h
      by_cases h1 : mW ≤ el k
      · simp [waitAux, h1] at h
      · by_cases h2 : eps < |s k - st.pool|
        · -- differing sample: store it, set the flag, continue
          simp only [waitAux, if_neg h1, if_pos h2] at h
          have hT' : (∃ i < k + 1, eps < |s i - p₀|) ∧ 1 ≤ k + 1 ∧
              ({ st with pool := s k } : WaitSt).pool = s (k + 1 - 1) := by
            refine ⟨?_, by omega, by simp⟩
            cases flag with
            | false =>
                exact ⟨k, by omega, by rw [← (hF rfl).1]; exact h2⟩
            | true =>
                obtain ⟨i, hik, hi⟩ := (hT rfl).1
                exact ⟨i, by omega, hi⟩
          obtain ⟨hkj, hel, hj1, hdiff, hcons, hpool, havg, hcount⟩ :=
            ih (k + 1) { st with pool := s k } true st' j ha hc
              (by intro hcon; exact absurd hcon (by simp)) (fun _ => hT') h
          refine ⟨by omega, ?_, hj1, hdiff, hcons, hpool, havg, hcount⟩
          intro m hm hkm
          rcases eq_or_lt_of_le hkm with h4 | h4
          · rw [← h4]; omega
          · exact hel m hm (by omega)
        · cases flag with
          | true =>
              -- matching sample with the flag set: success at this iteration
              simp only [waitAux, if_neg h1, if_neg h2, if_pos rfl] at h
              obtain ⟨hd, hk1, hp⟩ := hT rfl
              have hj : j = k ∧ st' = { st with
                  avg_switch_time :=
                    (st.avg_switch_time * st.scanned_count + (sT k : ℚ)) /
                      ((st.scanned_count : ℚ) + 1),
                  scanned_count := st.scanned_count + 1 } := by
                cases h; exact ⟨rfl, rfl⟩
              obtain ⟨hj, hst⟩ := hj
              subst hj
              refine ⟨le_refl j, ?_, hk1, ?_, ?_, ?_, ?_, ?_⟩
              · intro m hm hkm
                have : m = j := by omega
                rw [this]; omega
              · obtain ⟨i, hik, hi⟩ := hd; exact ⟨i, hik, hi⟩
              · rw [← hp]; exact le_of_not_lt h2
              · rw [hst, ← hp]
              · rw [hst]; simp [ha, hc]
              · rw [hst]; simp [hc]
          | false =>
              -- matching sample, no difference seen yet: continue unchanged
              simp only [waitAux, if_neg h1, if_neg h2, Bool.false_eq_true,
                if_false] at h
              have hF' : st.pool = p₀ ∧ ∀ i < k + 1, |s i - p₀| ≤ eps := by
                obtain ⟨hp, hall⟩ := hF rfl
                refine ⟨hp, fun i hik => ?_⟩
                rcases Nat.lt_succ_iff_lt_or_eq.mp hik with h4 | h4
                · exact hall i h4
                · rw [h4, ← hp]; exact le_of_not_lt h2
              obtain ⟨hkj, hel, hj1, hdiff, hcons, hpool, havg, hcount⟩ :=
                ih (k + 1) st false st' j ha hc (fun _ => hF')
                  (by intro hcon; exact absurd hcon (by simp)) h
              refine ⟨by omega, ?_, hj1, hdiff, hcons, hpool, havg, hcount⟩
              intro m hm hkm
              rcases eq_or_lt_of_le hkm with h4 | h4
              · rw [← h4]; omega
              · exact hel m hm (by omega)

theorem waitAux_ok_of_spec (mW : ℕ) (el sT : ℕ → ℕ) (s : ℕ → ℚ) (p₀ : ℚ) :
    ∀ (fuel k : ℕ) (st : WaitSt) (flag : Bool),
      (flag = false → st.pool = p₀ ∧ ∀ i < k, |s i - p₀| ≤ eps) →
      (flag = true →
        (∃ i < k, eps < |s i - p₀|) ∧ 1 ≤ k ∧ st.pool = s (k - 1)) →
      (∃ j, k ≤ j ∧ j < k + fuel ∧ (∀ m ≤ j, el m < mW) ∧
        (∃ i < j, eps < |s i - p₀|) ∧ |s j - s (j - 1)| ≤ eps) →
      ∃ st' j, waitAux mW el sT s fuel k st flag = .ok st' j := by
  intro fuel
  induction fuel with
  | zero => rintro k st flag _ _ ⟨j, h1, h2, _⟩; omega
  | succ fuel ih =>
      rintro k st flag hF hT ⟨j, hkj, hjf, hel, hdiff, hcons⟩
      have h1 : ¬mW ≤ el k := not_le.mpr (hel k (by omega))
      by_cases h2 : eps < |s k - st.pool|
      · have hT' : (∃ i < k + 1, eps < |s i - p₀|) ∧ 1 ≤ k + 1 ∧
            ({ st with pool := s k } : WaitSt).pool = s (k + 1 - 1) := by
          refine ⟨?_, by omega, by simp⟩
          cases flag with
          | false => exact ⟨k, by omega, by rw [← (hF rfl).1]; exact h2⟩
          | true =>
              obtain ⟨i, hik, hi⟩ := (hT rfl).1
              exact ⟨i, by omega, hi⟩
        have hjk : k + 1 ≤ j := by
          rcases eq_or_lt_of_le hkj with h4 | h4
          · exfalso
            cases flag with
            | false =>
                obtain ⟨i, hik, hi⟩ := hdiff
                exact absurd hi (not_lt.mpr ((hF rfl).2 i (by omega)))
            | true =>
                rw [← h4, ← (hT rfl).2.2] at hcons
                exact absurd h2 (not_lt.mpr hcons)
          · omega
        obtain ⟨st', j', hok⟩ :=
          ih (k + 1) { st with pool := s k } true
            (by intro hcon; exact absurd hcon (by simp)) (fun _ => hT')
            ⟨j, hjk, by omega, hel, hdiff, hcons⟩
        exact ⟨st', j', by simp only [waitAux, if_neg h1, if_pos h2]; exact hok⟩
      · cases flag with
        | true =>
            refine ⟨{ st with
                avg_switch_time :=
                  (st.avg_switch_time * st.scanned_count + (sT k : ℚ)) /
                    ((st.scanned_count : ℚ) + 1),
                scanned_count := st.scanned_count + 1 }, k, ?_⟩
            simp [waitAux, h1, h2]
        | false =>
            have hF' : st.pool = p₀ ∧ ∀ i < k + 1, |s i - p₀| ≤ eps := by
              obtain ⟨hp, hall⟩ := hF rfl
              refine ⟨hp, fun i hik => ?_⟩
              rcases Nat.lt_succ_iff_lt_or_eq.mp hik with h4 | h4
              · exact hall i h4
              · rw [h4, ← hp]; exact le_of_not_lt h2
            have hjk : k + 1 ≤ j := by
              rcases eq_or_lt_of_le hkj with h4 | h4
              · exfalso
                obtain ⟨i, hik, hi⟩ := hdiff
                exact absurd hi (not_lt.mpr ((hF rfl).2 i (by omega)))
              · omega
            obtain ⟨st', j', hok⟩ :=
              ih (k + 1) st false (fun _ => hF')
                (by intro hcon; exact absurd hcon (by simp))
                ⟨j, hjk, by omega, hel, hdiff, hcons⟩
            refine ⟨st', j', ?_⟩
            simp only [waitAux, if_neg h1, if_neg h2, Bool.false_eq_true,
              if_false]
            exact hok

theorem waitAux_ne_fuelOut (mW : ℕ) (el sT : ℕ → ℕ) (s : ℕ → ℚ) :
    ∀ (fuel k : ℕ) (st : WaitSt) (flag : Bool),
      (∃ m, k ≤ m ∧ m < k + fuel ∧ mW ≤ el m) →
      waitAux mW el sT s fuel k st flag ≠ .fuelOut := by
  intro fuel
  induction fuel with
  | zero => rintro k st flag ⟨m, h1, h2, _⟩; omega
  | succ fuel ih =>
      rintro k st flag ⟨m, hkm, hmf, hm⟩
      by_cases h1 : mW ≤ el k
      · simp [waitAux, h1]
      · have hne : k ≠ m := fun h => h1 (h ▸ hm)
        have hrec : ∃ m, k + 1 ≤ m ∧ m < k + 1 + fuel ∧ mW ≤ el m :=
          ⟨m, by omega, by omega, hm⟩
        by_cases h2 : eps < |s k - st.pool|
        · simp only [waitAux, if_neg h1, if_pos h2]
          exact ih (k + 1) _ true hrec
        · cases flag with
          | true => simp [waitAux, h1, h2]
          | false =>
              simp only [waitAux, if_neg h1, if_neg h2, Bool.false_eq_true,
                if_false]
              exact ih (k + 1) st false hrec

/-! ## Lemmas about `scroll_one_row`

The loop invariant, with `idx₀` the oracle cursor at entry (so iteration
`i` of the loop consults the oracles at `idx₀ + i`, and `count = i + 1`
after `i + 1` iterations): `state = 1` iff some earlier check erred, and
while `state = 0` every earlier check succeeded. -/

theorem scroll_one_rowAux_success_spec (env : ScrollEnv)
    (hrmb : ∀ k, env.rmb k = false) (idx₀ : ℕ) :
    ∀ (n count : ℕ) (state1 : Bool) (st : ScrollSt) (c : ℕ) (st' : ScrollSt)
      (i' : ℕ),
      (state1 = true → ∃ i < count, env.flagOk (idx₀ + i) = false) →
      (state1 = false → ∀ i < count, env.flagOk (idx₀ + i) = true) →
      scroll_one_rowAux env n count state1 (idx₀ + count) st =
        .success c st' i' →
      count < c ∧ c ≤ count + n ∧ env.flagOk (idx₀ + (c - 1)) = true ∧
        (∃ i < c - 1, env.flagOk (idx₀ + i) = false) ∧
        (∀ j, count ≤ j → j < c - 1 →
          ¬(env.flagOk (idx₀ + j) = true ∧
            ∃ i < j, env.flagOk (idx₀ + i) = false)) ∧
        st' = update_avg_row st c ∧ i' = idx₀ + c := by
  intro n
  induction n with
  | zero =>
      intro count state1 st c st' i' _ _ h
      exact absurd h (by simp [scroll_one_rowAux])
  | succ n ih =>
      intro count state1 st c st' i' hs1 hs0 h
      rw [scroll_one_rowAux, if_neg (by simp [hrmb])] at h
      cases state1 with
      | true =>
          cases hflag : env.flagOk (idx₀ + count) with
          | true =>
              simp only [hflag] at h
              obtain ⟨hc, hst, hi⟩ : c = count + 1 ∧
                  st' = update_avg_row st (count + 1) ∧
                  i' = idx₀ + count + 1 := by cases h; exact ⟨rfl, rfl, rfl⟩
              subst hc
              refine ⟨by omega, by omega, by simpa using hflag, ?_, ?_, ?_, ?_⟩
              · obtain ⟨i, hic, hi⟩ := hs1 rfl
                exact ⟨i, by simpa using hic, hi⟩
              · intro j h1 h2; exact absurd h2 (by omega)
              · exact hst
              · exact hi
          | false =>
              simp only [hflag] at h
              obtain ⟨hc1, hc2, hm, hd, hmin, hst, hi⟩ :=
                ih (count + 1) true st c st' i'
                  (fun _ => by
                    obtain ⟨i, hic, hi⟩ := hs1 rfl
                    exact ⟨i, by omega, hi⟩)
                  (by intro hcon; exact absurd hcon (by simp)) h
              refine ⟨by omega, by omega, hm, hd, ?_, hst, hi⟩
              intro j h1 h2
              rcases eq_or_lt_of_le h1 with h3 | h3
              · rw [← h3]; rintro ⟨hj, -⟩; rw [hflag] at hj; exact absurd hj (by simp)
              · exact hmin j (by omega) h2
      | false =>
          cases hflag : env.flagOk (idx₀ + count) with
          | true =>
              simp only [hflag] at h
              obtain ⟨hc1, hc2, hm, hd, hmin, hst, hi⟩ :=
                ih (count + 1) false st c st' i'
                  (by intro hcon; exact absurd hcon (by simp))
                  (fun _ => by
                    intro i hic
                    rcases Nat.lt_succ_iff_lt_or_eq.mp hic with h3 | h3
                    · exact hs0 rfl i h3
                    · rw [h3]; exact hflag) h
              refine ⟨by omega, by omega, hm, hd, ?_, hst, hi⟩
              intro j h1 h2
              rcases eq_or_lt_of_le h1 with h3 | h3
              · rw [← h3]
                rintro ⟨-, i, hij, hi⟩
                exact absurd (hs0 rfl i (by omega)) (by simp [hi])
              · exact hmin j (by omega) h2
          | false =>
              simp only [hflag] at h
              obtain ⟨hc1, hc2, hm, hd, hmin, hst, hi⟩ :=
                ih (count + 1) true st c st' i'
                  (fun _ => ⟨count, by omega, hflag⟩)
                  (by intro hcon; exact absurd hcon (by simp)) h
              refine ⟨by omega, by omega, hm, hd, ?_, hst, hi⟩
              intro j h1 h2
              rcases eq_or_lt_of_le h1 with h3 | h3
              · rw [← h3]; rintro ⟨hj, -⟩; rw [hflag] at hj; exact absurd hj (by simp)
              · exact hmin j (by omega) h2

theorem scroll_one_rowAux_success_exists (env : ScrollEnv)
    (hrmb : ∀ k, env.rmb k = false) (idx₀ : ℕ) :
    ∀ (n count : ℕ) (state1 : Bool) (st : ScrollSt),
      (state1 = true → ∃ i < count, env.flagOk (idx₀ + i) = false) →
      (state1 = false → ∀ i < count, env.flagOk (idx₀ + i) = true) →
      (∃ j, count ≤ j ∧ j < count + n ∧ env.flagOk (idx₀ + j) = true ∧
        ∃ i < j, env.flagOk (idx₀ + i) = false) →
      ∃ c st' i',
        scroll_one_rowAux env n count state1 (idx₀ + count) st =
          .success c st' i' := by
  intro n
  induction n with
  | zero => rintro count state1 st _ _ ⟨j, h1, h2, _⟩; omega
  | succ n ih =>
      rintro count state1 st hs1 hs0 ⟨j, hcj, hjn, hj, hdiff⟩
      rw [scroll_one_rowAux, if_neg (by simp [hrmb])]
      cases state1 with
      | true =>
          cases hflag : env.flagOk (idx₀ + count) with
          | true => exact ⟨count + 1, _, _, rfl⟩
          | false =>
              have hji : count + 1 ≤ j := by
                rcases eq_or_lt_of_le hcj with h3 | h3
                · rw [← h3] at hj; rw [hflag] at hj; exact absurd hj (by simp)
                · omega
              exact ih (count + 1) true st
                (fun _ => by
                  obtain ⟨i, hic, hi⟩ := hs1 rfl
                  exact ⟨i, by omega, hi⟩)
                (by intro hcon; exact absurd hcon (by simp))
                ⟨j, hji, by omega, hj, hdiff⟩
      | false =>
          cases hflag : env.flagOk (idx₀ + count) with
          | true =>
              have hji : count + 1 ≤ j := by
                rcases eq_or_lt_of_le hcj with h3 | h3
                · exfalso
                  obtain ⟨i, hij, hi⟩ := hdiff
                  exact absurd (hs0 rfl i (by omega)) (by simp [hi])
                · omega
              exact ih (count + 1) false st
                (by intro hcon; exact absurd hcon (by simp))
                (fun _ => by
                  intro i hic
                  rcases Nat.lt_succ_iff_lt_or_eq.mp hic with h3 | h3
                  · exact hs0 rfl i h3
                  · rw [h3]; exact hflag)
                ⟨j, hji, by omega, hj, hdiff⟩
          | false =>
              have hji : count + 1 ≤ j := by
                rcases eq_or_lt_of_le hcj with h3 | h3
                · rw [← h3] at hj; rw [hflag] at hj; exact absurd hj (by simp)
                · omega
              exact ih (count + 1) true st
                (fun _ => ⟨count, by omega, hflag⟩)
                (by intro hcon; exact absurd hcon (by simp))
                ⟨j, hji, by omega, hj, hdiff⟩

theorem scroll_one_rowAux_timeout (env : ScrollEnv)
    (hrmb : ∀ k, env.rmb k = false) (idx₀ : ℕ) :
    ∀ (n count : ℕ) (state1 : Bool) (st : ScrollSt),
      (state1 = true → ∃ i < count, env.flagOk (idx₀ + i) = false) →
      (state1 = false → ∀ i < count, env.flagOk (idx₀ + i) = true) →
      ¬(∃ j, count ≤ j ∧ j < count + n ∧ env.flagOk (idx₀ + j) = true ∧
        ∃ i < j, env.flagOk (idx₀ + i) = false) →
      scroll_one_rowAux env n count state1 (idx₀ + count) st =
        .timeLimit st (idx₀ + count + n) := by
  intro n
  induction n with
  | zero => intro count state1 st _ _ _; simp [scroll_one_rowAux]
  | succ n ih =>
      intro count state1 st hs1 hs0 hno
      rw [scroll_one_rowAux, if_neg (by simp [hrmb])]
      cases state1 with
      | true =>
          cases hflag : env.flagOk (idx₀ + count) with
          | true =>
              exfalso
              obtain ⟨i, hic, hi⟩ := hs1 rfl
              exact hno ⟨count, le_refl _, by omega, hflag, i, hic, hi⟩
          | false =>
              have := ih (count + 1) true st
                (fun _ => by
                  obtain ⟨i, hic, hi⟩ := hs1 rfl
                  exact ⟨i, by omega, hi⟩)
                (by intro hcon; exact absurd hcon (by simp))
                (by rintro ⟨j, h1, h2, h3, h4⟩
                    exact hno ⟨j, by omega, by omega, h3, h4⟩)
              have h2 : idx₀ + count + (n + 1) = idx₀ + (count + 1) + n := by
                omega
              rw [h2]
              exact this
      | false =>
          cases hflag : env.flagOk (idx₀ + count) with
          | true =>
              have := ih (count + 1) false st
                (by intro hcon; exact absurd hcon (by simp))
                (fun _ => by
                  intro i hic
                  rcases Nat.lt_succ_iff_lt_or_eq.mp hic with h3 | h3
                  · exact hs0 rfl i h3
                  · rw [h3]; exact hflag)
                (by rintro ⟨j, h1, h2, h3, h4⟩
                    exact hno ⟨j, by omega, by omega, h3, h4⟩)
              have h2 : idx₀ + count + (n + 1) = idx₀ + (count + 1) + n := by
                omega
              rw [h2]
              exact this
          | false =>
              have := ih (count + 1) true st
                (fun _ => ⟨count, by omega, hflag⟩)
                (by intro hcon; exact absurd hcon (by simp))
                (by rintro ⟨j, h1, h2, h3, h4⟩
                    exact hno ⟨j, by omega, by omega, h3, h4⟩)
              have h2 : idx₀ + count + (n + 1) = idx₀ + (count + 1) + n := by
                omega
              rw [h2]
              exact this

/-! ## Claims C2 and C6 -/

/-- **C2.** In non-cloud mode, `wait_until_switched` returns success iff,
before `maxWaitSwitchItemMs` elapses, some polled pool scalar differs from
the stored value by more than `1e-6` and a subsequent polled sample differs
from the (then-)stored value by at most `1e-6` (one consecutive equal
sample suffices); if the budget elapses without this two-phase condition it
returns the `WaitSwitchTimeout` error.  Fuel `T + 1` suffices given an
iteration `T` at which the budget has elapsed. -/
theorem wait_until_switched_iff (mW T : ℕ) (el sT : ℕ → ℕ) (s : ℕ → ℚ)
    (st : WaitSt) (hT : mW ≤ el T) :
    ((∃ st' j, wait_until_switched false mW el sT s (T + 1) st = .ok st' j) ↔
      switchedSpec mW el s st.pool) ∧
    ((∃ st',
        wait_until_switched false mW el sT s (T + 1) st = .timeout st') ↔
      ¬switchedSpec mW el s st.pool) := by
  have hiff : (∃ st' j,
      wait_until_switched false mW el sT s (T + 1) st = .ok st' j) ↔
      switchedSpec mW el s st.pool := by
    constructor
    · rintro ⟨st', j, hok⟩
      rw [show wait_until_switched false mW el sT s (T + 1) st =
          waitAux mW el sT s (T + 1) 0 st false from rfl] at hok
      obtain ⟨_, hel, hj1, hdiff, hcons, _, _, _⟩ :=
        waitAux_ok_spec mW el sT s st.pool st.avg_switch_time
          st.scanned_count (T + 1) 0 st false st' j rfl rfl
          (fun _ => ⟨rfl, fun i hi => absurd hi (by omega)⟩)
          (by intro hcon; exact absurd hcon (by simp)) hok
      refine ⟨j - 1, ?_, ?_, ?_⟩
      · intro k hk; exact hel k (by omega) (by omega)
      · obtain ⟨i, hij, hi⟩ := hdiff; exact ⟨i, by omega, hi⟩
      · have h : j - 1 + 1 = j := by omega
        rw [h]; exact hcons
    · rintro ⟨j, hel, hdiff, hcons⟩
      have hjT : j + 1 < T + 1 := by
        by_contra hcontra
        have := hel T (by omega)
        omega
      obtain ⟨st', j', hok⟩ :=
        waitAux_ok_of_spec mW el sT s st.pool (T + 1) 0 st false
          (fun _ => ⟨rfl, fun i hi => absurd hi (by omega)⟩)
          (by intro hcon; exact absurd hcon (by simp))
          ⟨j + 1, by omega, by omega, hel,
            (by obtain ⟨i, hij, hi⟩ := hdiff; exact ⟨i, by omega, hi⟩),
            by simpa using hcons⟩
      exact ⟨st', j', hok⟩
  refine ⟨hiff, ?_⟩
  have hnf : wait_until_switched false mW el sT s (T + 1) st ≠ .fuelOut :=
    waitAux_ne_fuelOut mW el sT s (T + 1) 0 st false
      ⟨T, by omega, by omega, hT⟩
  constructor
  · rintro ⟨st'', htimeout⟩ hspec
    obtain ⟨st', j, hok⟩ := hiff.mpr hspec
    rw [htimeout] at hok
    exact absurd hok (by simp)
  · intro hnspec
    cases hres : wait_until_switched false mW el sT s (T + 1) st with
    | ok st' j => exact absurd (hiff.mp ⟨st', j, hres⟩) hnspec
    | timeout st'' => exact ⟨st'', rfl⟩
    | fuelOut => exact absurd hres hnf

/-- Witness for C2: with a budget of `10` ms, a clock reading `k` at
iteration `k`, initial pool `0` and constant samples `1`, the detector
succeeds. -/
theorem wait_until_switched_iff_witness :
    ∃ st' j, wait_until_switched false 10 (fun k => k) (fun k => k)
      (fun _ => (1 : ℚ)) 11 ⟨0, 0, 0⟩ = .ok st' j :=
  (wait_until_switched_iff 10 10 (fun k => k) (fun k => k) (fun _ => (1 : ℚ))
      ⟨0, 0, 0⟩ (by decide)).1.mpr
    ⟨0, by intro k hk; simpa using by omega,
      ⟨0, le_refl 0, by norm_num [eps, abs]⟩,
      by norm_num [eps]⟩

/-- Every `calc_pool` value is (the cast of) a natural number: the `f32`
accumulator sums `u8` red channels starting from `0.0`, so the pool scalar
is always integer-valued. -/
theorem calc_pool_natValued (row : List ℕ) : ∃ n : ℕ, calc_pool row = (n : ℚ) :=
  ⟨((List.range (row.length / 3)).map (fun i => row.getD (i * 3) 0)).sum, rfl⟩

/-- Two natural-valued rationals within `eps = 1e-6` of each other are
equal: distinct integers differ by at least `1`. -/
theorem nat_cast_eq_of_abs_sub_le_eps (m n : ℕ)
    (h : |(m : ℚ) - (n : ℚ)| ≤ eps) : (m : ℚ) = (n : ℚ) := by
  by_contra hne
  have hmn : (m : ℤ) - (n : ℤ) ≠ 0 :=
    sub_ne_zero.mpr (fun h' => hne (by exact_mod_cast h'))
  have h1 : (1 : ℤ) ≤ |(m : ℤ) - (n : ℤ)| := Int.one_le_abs hmn
  have h2 : (1 : ℚ) ≤ |(m : ℚ) - (n : ℚ)| := by exact_mod_cast h1
  rw [eps] at h
  linarith

/-- **C6.** Whenever the switch detector declares switched (non-cloud
success of `wait_until_switched`, at poll `j`), the stored `pool` equals the
latest captured pool value `s j`, `avg_switch_time` is updated to
`(avgSwitchMs*scannedCount + elapsedMs)/(scannedCount+1)`, and
`scanned_count` is incremented by one.  The hypothesis records that every
captured sample is a `calc_pool` value (as in the source, where the sample
is `calc_pool(im.as_raw())`); such values are integer-valued, so the final
within-`1e-6` sample is *equal* to the stored one. -/
theorem wait_switch_success_updates (mW : ℕ) (el sT : ℕ → ℕ) (s : ℕ → ℚ)
    (fuel : ℕ) (st st' : WaitSt) (j : ℕ)
    (hsamp : ∀ k, ∃ row, s k = calc_pool row)
    (h : wait_until_switched false mW el sT s fuel st = .ok st' j) :
    st'.pool = s j ∧
    st'.avg_switch_time =
      (st.avg_switch_time * (st.scanned_count : ℚ) + (sT j : ℚ)) /
        ((st.scanned_count : ℚ) + 1) ∧
    st'.scanned_count = st.scanned_count + 1 := by
  rw [show wait_until_switched false mW el sT s fuel st =
      waitAux mW el sT s fuel 0 st false from rfl] at h
  obtain ⟨_, _, hj1, _, hcons, hpool, havg, hcount⟩ :=
    waitAux_ok_spec mW el sT s st.pool st.avg_switch_time st.scanned_count
      fuel 0 st false st' j rfl rfl
      (fun _ => ⟨rfl, fun i hi => absurd hi (by omega)⟩)
      (by intro hcon; exact absurd hcon (by simp)) h
  have hint : ∀ k, ∃ n : ℕ, s k = (n : ℚ) := by
    intro k
    obtain ⟨row, hrow⟩ := hsamp k
    obtain ⟨n, hn⟩ := calc_pool_natValued row
    exact ⟨n, hrow.trans hn⟩
  obtain ⟨a, ha⟩ := hint j
  obtain ⟨b, hb⟩ := hint (j - 1)
  have heq : s j = s (j - 1) := by
    rw [ha, hb]
    exact nat_cast_eq_of_abs_sub_le_eps a b (by rw [← ha, ← hb]; exact hcons)
  exact ⟨by rw [hpool, heq], havg, hcount⟩

/-- Witness for C6 at a concrete run: initial pool `0`, every sample the
`calc_pool` value `1` of the row `[1, 0, 0]`; the detector succeeds at
poll `1` with the latest sample stored. -/
theorem wait_switch_success_updates_witness :
    (WaitSt.mk 1 1 1).pool = (fun _ => (1 : ℚ)) 1 ∧
    (WaitSt.mk 1 1 1).avg_switch_time =
      ((WaitSt.mk 0 0 0).avg_switch_time *
          ((WaitSt.mk 0 0 0).scanned_count : ℚ) + ((1 : ℕ) : ℚ)) /
        (((WaitSt.mk 0 0 0).scanned_count : ℚ) + 1) ∧
    (WaitSt.mk 1 1 1).scanned_count = (WaitSt.mk 0 0 0).scanned_count + 1 :=
  wait_switch_success_updates 10 (fun k => k) (fun k => k) (fun _ => (1 : ℚ)) 5
    ⟨0, 0, 0⟩ ⟨1, 1, 1⟩ 1
    (fun _ => ⟨[1, 0, 0], by norm_num [calc_pool, List.range_succ]⟩)
    (by norm_num [wait_until_switched, waitAux, eps, abs])

/-! ## Lemmas about `scroll_rows` -/

theorem batchLoop_no_fail (env : ScrollEnv)
    (hfail : ∀ i, env.tickFail i = false) :
    ∀ (n idx : ℕ),
      batchLoop env n idx = (List.replicate n SEv.batchTick, false, idx + n) := by
  intro n
  induction n with
  | zero => intro idx; simp [batchLoop]
  | succ n ih =>
      intro idx
      rw [batchLoop, if_neg (by simp [hfail]), ih (idx + 1)]
      simp [List.replicate_succ]
      omega

/-- If any tick of the batch loop fails — at *any* position `m` among the
`n` planned ticks — the loop reports failure (the `if let Err(_) = ... {
return ScrollResult::Interrupt }` arm of the `for` loop fires at the first
failing tick). -/
theorem batchLoop_fail (env : ScrollEnv) :
    ∀ (n idx : ℕ), (∃ m < n, env.tickFail (idx + m) = true) →
      (batchLoop env n idx).2.1 = true := by
  intro n
  induction n with
  | zero => rintro idx ⟨m, hm, _⟩; exact absurd hm (by omega)
  | succ n ih =>
      rintro idx ⟨m, hm, hf⟩
      by_cases h0 : env.tickFail idx
      · rw [batchLoop, if_pos h0]
      · rw [batchLoop, if_neg h0]
        have hm1 : 1 ≤ m := by
          rcases Nat.eq_zero_or_pos m with h | h
          · rw [h, Nat.add_zero] at hf
            exact absurd hf h0
          · exact h
        dsimp only
        refine ih (idx + 1) ⟨m - 1, by omega, ?_⟩
        rw [show idx + 1 + (m - 1) = idx + m by omega]
        exact hf

/-- The control flow of `scroll_one_row` does not depend on the controller
state: two runs from states `st₁`, `st₂` take the same branch, observe the
same tick count and cursor, and update their respective states in the same
way (`update_avg_row` on success, unchanged otherwise). -/
theorem scroll_one_rowAux_pair (env : ScrollEnv) :
    ∀ (n count : ℕ) (state1 : Bool) (idx : ℕ) (st₁ st₂ : ScrollSt),
      (∃ c i', scroll_one_rowAux env n count state1 idx st₁ =
          .success c (update_avg_row st₁ c) i' ∧
        scroll_one_rowAux env n count state1 idx st₂ =
          .success c (update_avg_row st₂ c) i') ∨
      (∃ i', scroll_one_rowAux env n count state1 idx st₁ =
          .interrupt st₁ i' ∧
        scroll_one_rowAux env n count state1 idx st₂ = .interrupt st₂ i') ∨
      (∃ i', scroll_one_rowAux env n count state1 idx st₁ =
          .timeLimit st₁ i' ∧
        scroll_one_rowAux env n count state1 idx st₂ = .timeLimit st₂ i') := by
  intro n
  induction n with
  | zero =>
      intro count state1 idx st₁ st₂
      exact Or.inr (Or.inr ⟨idx, rfl, rfl⟩)
  | succ n ih =>
      intro count state1 idx st₁ st₂
      by_cases hr : env.rmb idx
      · exact Or.inr (Or.inl ⟨idx, by simp [scroll_one_rowAux, hr],
          by simp [scroll_one_rowAux, hr]⟩)
      · rw [scroll_one_rowAux, scroll_one_rowAux, if_neg (by simp [hr]),
          if_neg (by simp [hr])]
        cases state1 with
        | true =>
            cases hflag : env.flagOk idx with
            | true => exact Or.inl ⟨count + 1, idx + 1, rfl, rfl⟩
            | false => exact ih (count + 1) true (idx + 1) st₁ st₂
        | false =>
            cases hflag : env.flagOk idx with
            | true => exact ih (count + 1) false (idx + 1) st₁ st₂
            | false => exact ih (count + 1) true (idx + 1) st₁ st₂

/-- Phase A consults the scroll environment and `scrolled_rows` only: the
result, final cursor, trace, and resulting `scrolled_rows` are the same for
any two entry states with equal `scrolled_rows` (in particular, for any two
values of `avg_scroll_one_row`). -/
theorem phaseALoop_avg_indep (env : ScrollEnv) :
    ∀ (k idx : ℕ) (st₁ st₂ : ScrollSt),
      st₁.scrolled_rows = st₂.scrolled_rows →
      (phaseALoop env k idx st₁).result = (phaseALoop env k idx st₂).result ∧
      (phaseALoop env k idx st₁).idx = (phaseALoop env k idx st₂).idx ∧
      (phaseALoop env k idx st₁).trace = (phaseALoop env k idx st₂).trace ∧
      (phaseALoop env k idx st₁).st.scrolled_rows =
        (phaseALoop env k idx st₂).st.scrolled_rows := by
  intro k
  induction k with
  | zero => intro idx st₁ st₂ hrows; exact ⟨rfl, rfl, rfl, hrows⟩
  | succ k ih =>
      intro idx st₁ st₂ hrows
      rcases scroll_one_rowAux_pair env 25 0 false idx st₁ st₂ with
        ⟨c, i', h1, h2⟩ | ⟨i', h1, h2⟩ | ⟨i', h1, h2⟩
      · have hrec := ih i' (update_avg_row st₁ c) (update_avg_row st₂ c)
          (by simp [update_avg_row, hrows])
        rw [phaseALoop]
        rw [show scroll_one_row env idx st₁ =
            .success c (update_avg_row st₁ c) i' from h1]
        rw [phaseALoop]
        rw [show scroll_one_row env idx st₂ =
            .success c (update_avg_row st₂ c) i' from h2]
        simpa using hrec
      · rw [phaseALoop, show scroll_one_row env idx st₁ = .interrupt st₁ i'
          from h1, phaseALoop, show scroll_one_row env idx st₂ =
          .interrupt st₂ i' from h2]
        exact ⟨rfl, rfl, rfl, hrows⟩
      · rw [phaseALoop, show scroll_one_row env idx st₁ = .timeLimit st₁ i'
          from h1, phaseALoop, show scroll_one_row env idx st₂ =
          .timeLimit st₂ i' from h2]
        exact ⟨rfl, rfl, rfl, hrows⟩

/-- Phase A performs at most `k` single-row scrolls, and exactly `k` when it
reports `Success`. -/
theorem phaseALoop_trace (env : ScrollEnv) :
    ∀ (k idx : ℕ) (st : ScrollSt),
      (phaseALoop env k idx st).trace.length ≤ k ∧
      ((phaseALoop env k idx st).result = .success →
        (phaseALoop env k idx st).trace = List.replicate k SEv.oneRowCall) := by
  intro k
  induction k with
  | zero => intro idx st; exact ⟨by simp [phaseALoop], fun _ => rfl⟩
  | succ k ih =>
      intro idx st
      rw [phaseALoop]
      cases h : scroll_one_row env idx st with
      | success c st' i' =>
          obtain ⟨hlen, htr⟩ := ih i' st'
          refine ⟨by simpa using hlen, fun hres => ?_⟩
          simp only at hres ⊢
          rw [List.replicate_succ, htr hres]
      | interrupt st' i' => exact ⟨by simp, by simp⟩
      | timeLimit st' i' => exact ⟨by simp, by simp⟩

/-! ## Claim C3 -/

/-- **C3.** `scroll_one_row` issues at most 25 wheel ticks; it returns
`Success` with the observed tick count exactly when the flag strip is first
seen changed (state 0 → 1: some check errs) and then seen matching again
(state 1 → success: a later check succeeds), any other observation being a
no-op transition (the returned count is the first tick at which this
two-phase condition holds); exceeding 25 ticks returns `TimeLimitExceeded`;
and on success `avg_scroll_one_row` becomes
`(avg·scrolledRows + tickCount)/(scrolledRows+1)` and `scrolled_rows` is
incremented by one. -/
theorem scroll_one_row_spec (env : ScrollEnv) (st : ScrollSt)
    (hrmb : ∀ k, env.rmb k = false) :
    (∀ c st' i', scroll_one_row env 0 st = .success c st' i' →
      1 ≤ c ∧ c ≤ 25 ∧ env.flagOk (c - 1) = true ∧
        (∃ i < c - 1, env.flagOk i = false) ∧
        (∀ j < c - 1,
          ¬(env.flagOk j = true ∧ ∃ i < j, env.flagOk i = false)) ∧
        st'.scrolled_rows = st.scrolled_rows + 1 ∧
        st'.avg_scroll_one_row =
          (st.avg_scroll_one_row * (st.scrolled_rows : ℚ) + (c : ℚ)) /
            ((st.scrolled_rows : ℚ) + 1)) ∧
    ((∃ j < 25, env.flagOk j = true ∧ ∃ i < j, env.flagOk i = false) ↔
      ∃ c st' i', scroll_one_row env 0 st = .success c st' i') ∧
    (¬(∃ j < 25, env.flagOk j = true ∧ ∃ i < j, env.flagOk i = false) →
      scroll_one_row env 0 st = .timeLimit st 25) := by
  refine ⟨?_, ⟨?_, ?_⟩, ?_⟩
  · intro c st' i' h
    obtain ⟨h1, h2, h3, h4, h5, h6, h7⟩ :=
      scroll_one_rowAux_success_spec env hrmb 0 25 0 false st c st' i'
        (by intro hcon; exact absurd hcon (by simp))
        (fun _ i hi => absurd hi (by omega)) h
    refine ⟨by omega, by omega, by simpa using h3, ?_, ?_, ?_, ?_⟩
    · obtain ⟨i, hi1, hi2⟩ := h4
      exact ⟨i, hi1, by simpa using hi2⟩
    · intro j hj
      rintro ⟨hjt, i, hij, hif⟩
      exact h5 j (by omega) hj ⟨by simpa using hjt, i, hij, by simpa using hif⟩
    · rw [h6]; simp [update_avg_row]
    · rw [h6]; simp [update_avg_row]
  · rintro ⟨j, hj25, hjt, i, hij, hif⟩
    exact scroll_one_rowAux_success_exists env hrmb 0 25 0 false st
      (by intro hcon; exact absurd hcon (by simp))
      (fun _ i hi => absurd hi (by omega))
      ⟨j, by omega, by omega, by simpa using hjt, i, hij, by simpa using hif⟩
  · rintro ⟨c, st', i', h⟩
    obtain ⟨h1, h2, h3, h4, _, _, _⟩ :=
      scroll_one_rowAux_success_spec env hrmb 0 25 0 false st c st' i'
        (by intro hcon; exact absurd hcon (by simp))
        (fun _ i hi => absurd hi (by omega)) h
    refine ⟨c - 1, by omega, by simpa using h3, ?_⟩
    obtain ⟨i, hi1, hi2⟩ := h4
    exact ⟨i, hi1, by simpa using hi2⟩
  · intro hno
    have := scroll_one_rowAux_timeout env hrmb 0 25 0 false st
      (by intro hcon; exact absurd hcon (by simp))
      (fun _ i hi => absurd hi (by omega))
      (by rintro ⟨j, _, hj25, hjt, i, hij, hif⟩
          exact hno ⟨j, by omega, by simpa using hjt, i, hij,
            by simpa using hif⟩)
    simpa using this

/-- Witness for C3: with the flag check erring at tick 1 and succeeding at
tick 2, `scroll_one_row` succeeds. -/
theorem scroll_one_row_spec_witness :
    ∃ c st' i',
      scroll_one_row
        ⟨fun _ => false, fun k => decide (k ≠ 0), fun _ => false⟩ 0 ⟨0, 0⟩ =
        .success c st' i' :=
  ((scroll_one_row_spec
      ⟨fun _ => false, fun k => decide (k ≠ 0), fun _ => false⟩ ⟨0, 0⟩
      (fun _ => rfl)).2.1).mp
    ⟨1, by omega, by decide, ⟨0, by omega, by decide⟩⟩

/-! ## Claim C4 -/

/-- **C4.** `scroll_rows(k)` takes the calibrated batch path exactly when
`scrolled_rows ≥ 5` on a non-mac platform: there it issues exactly
`max(0, round(avg_scroll_one_row·k − 3))` back-to-back wheel ticks (absent
tick failures), sleeps once, and re-aligns by the flag strip, while with
`scrolled_rows < 5` (or on mac) it instead performs `k` single-row Phase-A
scrolls (at most `k` calls, exactly `k` on `Success`), whose observable
behaviour — result, cursor, trace, and resulting `scrolled_rows` — never
consults `avg_scroll_one_row`. -/
theorem scroll_rows_spec (plat : Platform) (env : ScrollEnv) (k idx : ℕ)
    (st : ScrollSt) :
    (plat ≠ Platform.macos → 5 ≤ st.scrolled_rows →
      (∀ i, env.tickFail i = false) →
      scroll_rows plat env k idx st =
        ⟨.skip, st,
          (align_row env
            (idx + (estimate_scroll_length st (k : ℤ)).toNat)).2,
          List.replicate (estimate_scroll_length st (k : ℤ)).toNat
              SEv.batchTick ++ [SEv.batchSleep, SEv.alignRun]⟩ ∧
      estimate_scroll_length st (k : ℤ) =
        max (rustRound (st.avg_scroll_one_row * (k : ℚ) - 3)) 0) ∧
    (plat = Platform.macos ∨ st.scrolled_rows < 5 →
      scroll_rows plat env k idx st = phaseALoop env k idx st ∧
      (scroll_rows plat env k idx st).trace.length ≤ k ∧
      ((scroll_rows plat env k idx st).result = .success →
        (scroll_rows plat env k idx st).trace =
          List.replicate k SEv.oneRowCall) ∧
      ∀ a : ℚ,
        (scroll_rows plat env k idx
            { st with avg_scroll_one_row := a }).result =
          (scroll_rows plat env k idx st).result ∧
        (scroll_rows plat env k idx
            { st with avg_scroll_one_row := a }).idx =
          (scroll_rows plat env k idx st).idx ∧
        (scroll_rows plat env k idx
            { st with avg_scroll_one_row := a }).trace =
          (scroll_rows plat env k idx st).trace ∧
        (scroll_rows plat env k idx
            { st with avg_scroll_one_row := a }).st.scrolled_rows =
          (scroll_rows plat env k idx st).st.scrolled_rows) := by
  constructor
  · intro hp h5 hfail
    refine ⟨?_, rfl⟩
    rw [scroll_rows, if_pos ⟨hp, h5⟩]
    have hb := batchLoop_no_fail env hfail
      ((estimate_scroll_length st (k : ℤ)).toNat) idx
    simp only [hb]
  · intro hcond
    have hneg : ¬(plat ≠ Platform.macos ∧ 5 ≤ st.scrolled_rows) := by
      rcases hcond with h | h
      · simp [h]
      · rintro ⟨-, h5⟩; omega
    have hneg' : ∀ a : ℚ,
        ¬(plat ≠ Platform.macos ∧
          5 ≤ ({ st with avg_scroll_one_row := a } : ScrollSt).scrolled_rows) := by
      intro a
      simpa using hneg
    have heq : scroll_rows plat env k idx st = phaseALoop env k idx st := by
      rw [scroll_rows, if_neg hneg]
    refine ⟨heq, ?_, ?_, ?_⟩
    · rw [heq]; exact (phaseALoop_trace env k idx st).1
    · rw [heq]; exact (phaseALoop_trace env k idx st).2
    · intro a
      rw [heq, scroll_rows, if_neg (hneg' a)]
      exact phaseALoop_avg_indep env k idx
        { st with avg_scroll_one_row := a } st rfl

/-- Witness for C4: calibrated (`scrolled_rows = 5`, `avg = 7`, `k = 2`)
batch path issues `round(7·2−3) = 11` ticks; and the uncalibrated
(`scrolled_rows = 0`) run equals the Phase-A loop. -/
theorem scroll_rows_spec_witness :
    (scroll_rows Platform.windows
        ⟨fun _ => false, fun _ => true, fun _ => false⟩ 2 0 ⟨5, 7⟩ =
      ⟨.skip, ⟨5, 7⟩,
        (align_row ⟨fun _ => false, fun _ => true, fun _ => false⟩
          (0 + (estimate_scroll_length ⟨5, 7⟩ (2 : ℤ)).toNat)).2,
        List.replicate (estimate_scroll_length ⟨5, 7⟩ (2 : ℤ)).toNat
            SEv.batchTick ++ [SEv.batchSleep, SEv.alignRun]⟩) ∧
    scroll_rows Platform.windows
        ⟨fun _ => false, fun _ => true, fun _ => false⟩ 3 0 ⟨0, 7⟩ =
      phaseALoop ⟨fun _ => false, fun _ => true, fun _ => false⟩ 3 0 ⟨0, 7⟩ :=
  ⟨((scroll_rows_spec Platform.windows
      ⟨fun _ => false, fun _ => true, fun _ => false⟩ 2 0 ⟨5, 7⟩).1
      (by simp) (by decide) (fun _ => rfl)).1,
   ((scroll_rows_spec Platform.windows
      ⟨fun _ => false, fun _ => true, fun _ => false⟩ 3 0 ⟨0, 7⟩).2
      (Or.inr (by decide))).1⟩

/-! ## Arithmetic about `totalRow` and `lastRowCol` -/

theorem itemCount_decomp (p : GenParams) (hcol : 0 < p.col)
    (hpos : 0 < p.itemCount) :
    p.itemCount = (totalRow p - 1) * p.col + lastRowCol p ∧
      0 < lastRowCol p ∧ lastRowCol p ≤ p.col ∧ 0 < totalRow p := by
  obtain ⟨q, r, hqr, hrlt, hq, hr⟩ :
      ∃ q r, p.itemCount = p.col * q + r ∧ r < p.col ∧
        q = p.itemCount / p.col ∧ r = p.itemCount % p.col :=
    ⟨_, _, (Nat.div_add_mod p.itemCount p.col).symm,
      Nat.mod_lt p.itemCount hcol, rfl, rfl⟩
  have htot : totalRow p = q + (r + p.col - 1) / p.col := by
    rw [totalRow, show p.itemCount + p.col - 1 =
      p.col * q + (r + p.col - 1) by omega, Nat.mul_add_div hcol]
  have hcomm : q * p.col = p.col * q := Nat.mul_comm q p.col
  rcases Nat.eq_zero_or_pos r with hr0 | hrpos
  · have hdiv : (r + p.col - 1) / p.col = 0 :=
      Nat.div_eq_of_lt (by omega)
    have htot' : totalRow p = q := by omega
    have hlast : lastRowCol p = p.col := by
      rw [lastRowCol, if_pos (by omega)]
    have hqpos : 0 < q := by
      rcases Nat.eq_zero_or_pos q with h | h
      · rw [h, Nat.mul_zero] at hqr; omega
      · exact h
    have key : (q - 1) * p.col + p.col = q * p.col := by
      obtain ⟨t, ht⟩ : ∃ t, q = t + 1 := ⟨q - 1, by omega⟩
      rw [ht]
      simp [Nat.succ_mul]
    refine ⟨?_, ?_, ?_, by omega⟩
    · rw [htot', hlast]; omega
    · rw [hlast]; exact hcol
    · rw [hlast]
  · have hdiv : (r + p.col - 1) / p.col = 1 := by
      rw [show r + p.col - 1 = (r - 1) + p.col by omega,
        Nat.add_div_right _ hcol, Nat.div_eq_of_lt (by omega)]
    have htot' : totalRow p = q + 1 := by omega
    have hlast : lastRowCol p = r := by
      rw [lastRowCol, if_neg (by omega)]
      omega
    refine ⟨?_, by omega, by omega, by omega⟩
    rw [htot', hlast]
    simp only [Nat.add_sub_cancel]
    omega

theorem totalRow_mul_ge (p : GenParams) (hcol : 0 < p.col) :
    p.itemCount ≤ totalRow p * p.col := by
  rcases Nat.eq_zero_or_pos p.itemCount with h0 | hpos
  · omega
  · obtain ⟨hdec, _, hle, htpos⟩ := itemCount_decomp p hcol hpos
    have key : (totalRow p - 1) * p.col + p.col = totalRow p * p.col := by
      obtain ⟨t, ht⟩ : ∃ t, totalRow p = t + 1 := ⟨totalRow p - 1, by omega⟩
      rw [ht]
      simp [Nat.succ_mul]
    omega

theorem totalRow_mul_lt (p : GenParams) (hcol : 0 < p.col)
    (hpos : 0 < p.itemCount) : (totalRow p - 1) * p.col < p.itemCount := by
  obtain ⟨hdec, hlpos, _, _⟩ := itemCount_decomp p hcol hpos
  omega

theorem totalRow_eq_zero_iff (p : GenParams) (hcol : 0 < p.col) :
    totalRow p = 0 ↔ p.itemCount = 0 := by
  constructor
  · intro h
    by_contra hne
    obtain ⟨_, _, _, htpos⟩ := itemCount_decomp p hcol (by omega)
    omega
  · intro h
    rw [totalRow, h]
    exact Nat.div_eq_of_lt (by omega)

theorem remainRow_eq (p : GenParams) (hcol : 0 < p.col) (a : ℕ)
    (ha : a * p.col ≤ p.itemCount) :
    (p.itemCount - a * p.col + p.col - 1) / p.col = totalRow p - a := by
  rw [totalRow]
  have hc : a * p.col = p.col * a := Nat.mul_comm a p.col
  have h1 : p.col * a ≤ p.itemCount + p.col - 1 := by omega
  have h2 := Nat.sub_mul_div (p.itemCount + p.col - 1) p.col a h1
  rw [show p.itemCount - a * p.col + p.col - 1 =
    p.itemCount + p.col - 1 - p.col * a by omega, h2]

theorem scannedRow_lt_totalRow (p : GenParams) (hcol : 0 < p.col) (a : ℕ)
    (h : a * p.col < p.itemCount) : a < totalRow p := by
  have := totalRow_mul_ge p hcol
  by_contra hcontra
  push_neg at hcontra
  have : totalRow p * p.col ≤ a * p.col := Nat.mul_le_mul_right _ hcontra
  omega

/-- Closed form for `rowsYield` on a screen that stays within the item
rows: scanning `m` rows from `srow` yields `m·col` cells, except that a
screen reaching the final item row (`srow + m = totalRow`, `m ≥ 1`) yields
exactly the remaining `itemCount − srow·col` cells. -/
theorem rowsYield_eq (p : GenParams) (hcol : 0 < p.col)
    (hpos : 0 < p.itemCount) :
    ∀ (m srow : ℕ), srow + m ≤ totalRow p →
      rowsYield p srow m =
        if srow + m = totalRow p ∧ 0 < m then p.itemCount - srow * p.col
        else m * p.col := by
  intro m
  induction m with
  | zero =>
      intro srow _
      rw [rowsYield, if_neg (by omega)]
      simp
  | succ m ih =>
      intro srow hle
      obtain ⟨hdec, hlpos, hlle, htpos⟩ := itemCount_decomp p hcol hpos
      rw [rowsYield]
      by_cases hlast : srow = totalRow p - 1
      · have hm0 : m = 0 := by omega
        subst hm0
        rw [if_pos hlast, rowsYield]
        rw [if_pos (by omega)]
        have hsc : srow * p.col ≤ (totalRow p - 1) * p.col :=
          Nat.mul_le_mul_right _ (by omega)
        have hsc' : srow * p.col = (totalRow p - 1) * p.col := by
          rw [hlast]
        omega
      · rw [if_neg hlast]
        have hrec := ih (srow + 1) (by omega)
        by_cases hfin : srow + (m + 1) = totalRow p
        · have hm : 0 < m := by omega
          rw [hrec, if_pos (by omega), if_pos (by omega)]
          have h1 : (srow + 1) * p.col ≤ p.itemCount := by
            have : srow + 1 ≤ totalRow p - 1 := by omega
            have := Nat.mul_le_mul_right p.col this
            omega
          have h2 : (srow + 1) * p.col = srow * p.col + p.col := by
            simp [Nat.succ_mul]
          omega
        · rw [hrec, if_neg (by omega), if_neg (by omega)]
          simp [Nat.succ_mul]
          omega

/-! ## Lemmas about the scan iterator -/

/-- One-step unfolding of the `'_col` loop. -/
theorem runCols_succ (p : GenParams) (env : GenEnv) (r n c : ℕ)
    (st : GenSt) :
    runCols p env r (n + 1) c st =
      if env.rmb st.polls then ([], .inl (.ok .interrupted))
      else if p.itemCount < st.scannedCount then ([], .inl (.ok .finished))
      else
        (GenEvent.yieldCell r c ::
          (runCols p env r n (c + 1)
            { st with polls := st.polls + 1, waits := st.waits + 1,
                      scannedCount := st.scannedCount + 1 }).1,
         (runCols p env r n (c + 1)
            { st with polls := st.polls + 1, waits := st.waits + 1,
                      scannedCount := st.scannedCount + 1 }).2) := rfl

/-- In a run without interrupts that stays within `itemCount`, a row of `n`
cells emits exactly `n` yields and advances the counters by `n`. -/
theorem runCols_clean (p : GenParams) (env : GenEnv) (r : ℕ)
    (hrmb : ∀ k, env.rmb k = false) :
    ∀ (n c : ℕ) (st : GenSt), st.scannedCount + n ≤ p.itemCount →
      ∃ tr, runCols p env r n c st =
        (tr, .inr { st with scannedCount := st.scannedCount + n,
                            polls := st.polls + n, waits := st.waits + n }) ∧
        countYields tr = n := by
  intro n
  induction n with
  | zero => intro c st _; exact ⟨[], rfl, rfl⟩
  | succ n ih =>
      intro c st hle
      rw [runCols_succ, if_neg (by simp [hrmb]), if_neg (by omega)]
      obtain ⟨tr, htr, hcount⟩ := ih (c + 1)
        { st with polls := st.polls + 1, waits := st.waits + 1,
                  scannedCount := st.scannedCount + 1 } (by simp; omega)
      refine ⟨GenEvent.yieldCell r c :: tr, ?_, ?_⟩
      · rw [htr]
        have h1 : st.scannedCount + 1 + n = st.scannedCount + (n + 1) := by
          omega
        have h2 : st.polls + 1 + n = st.polls + (n + 1) := by omega
        have h3 : st.waits + 1 + n = st.waits + (n + 1) := by omega
        simp [h1, h2, h3]
      · simp [countYields, isYieldEv] at hcount ⊢
        omega

/-- The `'_col` loop emits only yield events. -/
theorem runCols_all_yields (p : GenParams) (env : GenEnv) (r : ℕ) :
    ∀ (n c : ℕ) (st : GenSt) (ev : GenEvent),
      ev ∈ (runCols p env r n c st).1 → isYieldEv ev = true := by
  intro n
  induction n with
  | zero => intro c st ev h; exact absurd h (by simp [runCols])
  | succ n ih =>
      intro c st ev h
      rw [runCols_succ] at h
      by_cases h1 : env.rmb st.polls
      · rw [if_pos h1] at h; exact absurd h (by simp)
      · rw [if_neg h1] at h
        by_cases h2 : p.itemCount < st.scannedCount
        · rw [if_pos h2] at h; exact absurd h (by simp)
        · rw [if_neg h2] at h
          simp only [List.mem_cons] at h
          rcases h with h | h
          · rw [h]; rfl
          · exact ih (c + 1) _ ev h

/-- The `'_row` loop emits only yield events. -/
theorem runRows_all_yields (p : GenParams) (env : GenEnv) :
    ∀ (n r : ℕ) (st : GenSt) (ev : GenEvent),
      ev ∈ (runRows p env n r st).1 → isYieldEv ev = true := by
  intro n
  induction n with
  | zero => intro r st ev h; exact absurd h (by simp [runRows])
  | succ n ih =>
      intro r st ev h
      rcases hcols : runCols p env r
        (if st.scannedRow = totalRow p - 1 then lastRowCol p else p.col) 0 st
        with ⟨tr, res⟩
      have hmem : ∀ e ∈ tr, isYieldEv e = true := by
        intro e he
        exact runCols_all_yields p env r _ 0 st e (by rw [hcols]; exact he)
      cases res with
      | inl e =>
          rw [runRows] at h
          simp only [hcols] at h
          exact hmem ev h
      | inr st₂ =>
          rw [runRows] at h
          simp only [hcols] at h
          by_cases hbrk : p.maxRow ≤ st₂.scannedRow + 1
          · rw [if_pos hbrk] at h
            exact hmem ev h
          · rw [if_neg hbrk] at h
            simp only [List.mem_append] at h
            rcases h with h | h
            · exact hmem ev h
            · exact ih (r + 1) _ ev h

/-- One-step unfolding of the `'_row` loop. -/
theorem runRows_succ (p : GenParams) (env : GenEnv) (n r : ℕ) (st : GenSt) :
    runRows p env (n + 1) r st =
      match runCols p env r
        (if st.scannedRow = totalRow p - 1 then lastRowCol p else p.col)
        0 st with
      | (tr, .inl e) => (tr, .inl e)
      | (tr, .inr st₂) =>
          if p.maxRow ≤ st₂.scannedRow + 1 then
            (tr, .inr ({ st₂ with scannedRow := st₂.scannedRow + 1 }, true))
          else
            (tr ++ (runRows p env n (r + 1)
              { st₂ with scannedRow := st₂.scannedRow + 1 }).1,
             (runRows p env n (r + 1)
              { st₂ with scannedRow := st₂.scannedRow + 1 }).2) := rfl

/-- In a clean run, the `'_row` loop scans
`m = min n (maxRow - scannedRow)` rows (the `max_row` check breaks the
outer loop iff it stops the screen early or exactly at its end), emitting
`rowsYield` yields. -/
theorem runRows_clean (p : GenParams) (env : GenEnv)
    (hrmb : ∀ k, env.rmb k = false) (hcol : 0 < p.col) :
    ∀ (n r : ℕ) (st : GenSt),
      (st.scannedCount = st.scannedRow * p.col ∨ n = 0) →
      st.scannedRow < p.maxRow →
      st.scannedRow + n ≤ totalRow p →
      ∃ tr st',
        runRows p env n r st =
          (tr, .inr (st',
            decide (p.maxRow ≤
              st.scannedRow + min n (p.maxRow - st.scannedRow)))) ∧
        countYields tr =
          rowsYield p st.scannedRow (min n (p.maxRow - st.scannedRow)) ∧
        st'.scannedRow =
          st.scannedRow + min n (p.maxRow - st.scannedRow) ∧
        st'.scannedCount = st.scannedCount +
          rowsYield p st.scannedRow (min n (p.maxRow - st.scannedRow)) ∧
        st'.startRow = st.startRow ∧ st'.scrolls = st.scrolls := by
  intro n
  induction n with
  | zero =>
      intro r st _ hB _
      have hd : decide (p.maxRow ≤ st.scannedRow + min 0
          (p.maxRow - st.scannedRow)) = false :=
        decide_eq_false (by omega)
      refine ⟨[], st, ?_, by simp [rowsYield, countYields], by omega,
        by simp [rowsYield], rfl, rfl⟩
      rw [runRows, hd]
  | succ n ih =>
      intro r st hAor hB hC
      have hA : st.scannedCount = st.scannedRow * p.col := by
        rcases hAor with h | h
        · exact h
        · exact absurd h (by omega)
      have hpos : 0 < p.itemCount := by
        by_contra h0
        have : totalRow p = 0 := (totalRow_eq_zero_iff p hcol).mpr (by omega)
        omega
      obtain ⟨hdec, hlpos, hlle, htpos⟩ := itemCount_decomp p hcol hpos
      by_cases hlast : st.scannedRow = totalRow p - 1
      · -- final item row: `lastRowCol` cells, and `n = 0`
        have hn0 : n = 0 := by omega
        subst hn0
        have hsc : st.scannedCount = (totalRow p - 1) * p.col := by
          rw [hA, hlast]
        obtain ⟨tr, hcols, hcount⟩ := runCols_clean p env r hrmb
          (lastRowCol p) 0 st (by omega)
        have hm : min (0 + 1) (p.maxRow - st.scannedRow) = 1 := by omega
        have hry : rowsYield p st.scannedRow 1 = lastRowCol p := by
          rw [rowsYield, if_pos hlast, rowsYield]
          omega
        by_cases hbrk : p.maxRow ≤ st.scannedRow + 1
        · refine ⟨tr,
            ⟨st.scannedRow + 1, st.scannedCount + lastRowCol p, st.startRow,
              st.polls + lastRowCol p, st.scrolls, st.waits + lastRowCol p⟩,
            ?_, ?_, ?_, ?_, rfl, rfl⟩
          · rw [runRows_succ, if_pos hlast]
            simp only [hcols]
            rw [if_pos hbrk, hm, decide_eq_true hbrk]
          · rw [hm, hry]; exact hcount
          · dsimp only; omega
          · dsimp only; rw [hm, hry]
        · refine ⟨tr ++ [],
            ⟨st.scannedRow + 1, st.scannedCount + lastRowCol p, st.startRow,
              st.polls + lastRowCol p, st.scrolls, st.waits + lastRowCol p⟩,
            ?_, ?_, ?_, ?_, rfl, rfl⟩
          · rw [runRows_succ, if_pos hlast]
            simp only [hcols]
            rw [if_neg hbrk, hm, decide_eq_false (by omega)]
            rw [show runRows p env 0 (r + 1)
              ⟨st.scannedRow + 1, st.scannedCount + lastRowCol p, st.startRow,
                st.polls + lastRowCol p, st.scrolls,
                st.waits + lastRowCol p⟩ =
              ([], .inr (⟨st.scannedRow + 1,
                st.scannedCount + lastRowCol p, st.startRow,
                st.polls + lastRowCol p, st.scrolls,
                st.waits + lastRowCol p⟩, false)) from rfl]
          · rw [List.append_nil, hm, hry]; exact hcount
          · dsimp only; omega
          · dsimp only; rw [hm, hry]
      · -- full row of `col` cells
        have hrow_lt : st.scannedRow + 1 ≤ totalRow p - 1 := by omega
        have hmul : (st.scannedRow + 1) * p.col ≤ (totalRow p - 1) * p.col :=
          Nat.mul_le_mul_right _ hrow_lt
        have hlt := totalRow_mul_lt p hcol hpos
        have hsucc : (st.scannedRow + 1) * p.col =
            st.scannedRow * p.col + p.col := by simp [Nat.succ_mul]
        obtain ⟨tr, hcols, hcount⟩ := runCols_clean p env r hrmb
          p.col 0 st (by omega)
        have hry : rowsYield p st.scannedRow 1 = p.col := by
          rw [rowsYield, if_neg hlast, rowsYield]
          omega
        by_cases hbrk : p.maxRow ≤ st.scannedRow + 1
        · have hm : min (n + 1) (p.maxRow - st.scannedRow) = 1 := by omega
          refine ⟨tr,
            ⟨st.scannedRow + 1, st.scannedCount + p.col, st.startRow,
              st.polls + p.col, st.scrolls, st.waits + p.col⟩,
            ?_, ?_, ?_, ?_, rfl, rfl⟩
          · rw [runRows_succ, if_neg hlast]
            simp only [hcols]
            rw [if_pos hbrk, hm, decide_eq_true hbrk]
          · rw [hm, hry]; exact hcount
          · dsimp only; omega
          · dsimp only; rw [hm, hry]
        · -- recurse into the remaining rows
          obtain ⟨tr', st', hrec, hcount', hrow', hcount'', hstart', hscr'⟩ :=
            ih (r + 1)
              ⟨st.scannedRow + 1, st.scannedCount + p.col, st.startRow,
                st.polls + p.col, st.scrolls, st.waits + p.col⟩
              (by left; dsimp only; omega) (by dsimp only; omega)
              (by dsimp only; omega)
          dsimp only at hrec hcount' hrow' hcount'' hstart' hscr'
          have hmm : min (n + 1) (p.maxRow - st.scannedRow) =
              min n (p.maxRow - (st.scannedRow + 1)) + 1 := by omega
          have hry2 : rowsYield p st.scannedRow
              (min n (p.maxRow - (st.scannedRow + 1)) + 1) =
              p.col + rowsYield p (st.scannedRow + 1)
                (min n (p.maxRow - (st.scannedRow + 1))) := by
            rw [rowsYield, if_neg hlast]
          refine ⟨tr ++ tr', st', ?_, ?_, ?_, ?_, hstart', hscr'⟩
          · rw [runRows_succ, if_neg hlast]
            simp only [hcols]
            rw [if_neg hbrk]
            rw [hrec]
            have hdec2 : decide (p.maxRow ≤ st.scannedRow + 1 +
                min n (p.maxRow - (st.scannedRow + 1))) =
                decide (p.maxRow ≤ st.scannedRow +
                  min (n + 1) (p.maxRow - st.scannedRow)) := by
              congr 1
              simp only [eq_iff_iff]
              constructor <;> intro <;> omega
            rw [← hdec2]
          · rw [countYields, List.countP_append, hmm, hry2,
              ← countYields, ← countYields, hcount, hcount']
          · rw [hrow', hmm]
            omega
          · rw [hcount'', hmm, hry2]
            omega


/-- In a run with no interrupt and no scroll failure, the outer loop from an
invariant state finishes with `Ok(Finished)` after emitting the missing
`min itemCount (maxRow·col) - scannedCount` yields. -/
theorem runOuter_clean (p : GenParams) (env : GenEnv)
    (hrmb : ∀ k, env.rmb k = false)
    (hscroll : ∀ i, env.scroll i = .success ∨ env.scroll i = .skip)
    (hcol : 0 < p.col) (hrow : 0 < p.row) (hmax : 0 < p.maxRow) :
    ∀ (fuel : ℕ) (st : GenSt),
      (st.scannedCount = p.itemCount ∧ p.itemCount ≤ p.maxRow * p.col ∨
        st.scannedCount < p.itemCount ∧
        st.scannedCount = st.scannedRow * p.col ∧
        st.scannedRow < p.maxRow ∧
        min p.row (totalRow p) - st.startRow =
          min (totalRow p - st.scannedRow) p.row) →
      p.itemCount - st.scannedCount < fuel →
      ∃ tr, runOuter p env fuel st = (tr, .ok .finished) ∧
        countYields tr = min p.itemCount (p.maxRow * p.col) -
          st.scannedCount := by
  intro fuel
  induction fuel with
  | zero => intro st hinv hfuel; omega
  | succ fuel ih =>
      intro st hinv hfuel
      rcases hinv with ⟨hdone, hle⟩ | ⟨hlt, hA, hB, hC⟩
      · refine ⟨[], ?_, ?_⟩
        · rw [runOuter, if_neg (by omega)]
        · have hmin : min p.itemCount (p.maxRow * p.col) = p.itemCount := by
            omega
          simp [countYields, hmin, hdone]
      · have hpos : 0 < p.itemCount := by omega
        obtain ⟨hdec, hlpos, hlle, htpos⟩ := itemCount_decomp p hcol hpos
        have hsrlt : st.scannedRow < totalRow p :=
          scannedRow_lt_totalRow p hcol _ (hA ▸ hlt)
        set N := min p.row (totalRow p) - st.startRow with hN
        have hn1 : 1 ≤ N := by omega
        have hCge : N ≤ totalRow p - st.scannedRow := by omega
        obtain ⟨tr, st', hrec, hcnt, hrow', hcnt', hstart', hscr'⟩ :=
          runRows_clean p env hrmb hcol N st.startRow st (Or.inl hA) hB
            (by omega)
        set M := min N (p.maxRow - st.scannedRow) with hM
        have hm1 : 1 ≤ M := by omega
        have hamle : st.scannedRow + M ≤ totalRow p := by omega
        have hry := rowsYield_eq p hcol hpos M st.scannedRow hamle
        have hmulm : (st.scannedRow + M) * p.col =
            st.scannedRow * p.col + M * p.col := Nat.add_mul _ _ _
        rw [runOuter, if_pos hlt]
        by_cases hbrk : p.maxRow ≤ st.scannedRow + M
        · -- `max_row` break: the iterator returns Finished here
          have ham : st.scannedRow + M = p.maxRow := by omega
          simp only [hrec, decide_eq_true hbrk]
          refine ⟨tr, rfl, ?_⟩
          by_cases hfin : st.scannedRow + M = totalRow p
          · have hmineq : min p.itemCount (p.maxRow * p.col) =
                p.itemCount := by
              have h1 : totalRow p * p.col ≤ p.maxRow * p.col :=
                Nat.mul_le_mul_right _ (by omega)
              have h2 := totalRow_mul_ge p hcol
              omega
            rw [hcnt, hry, if_pos ⟨hfin, by omega⟩, hmineq, hA]
          · have h1 : st.scannedRow + M ≤ totalRow p - 1 := by omega
            have h2 : (st.scannedRow + M) * p.col ≤
                (totalRow p - 1) * p.col := Nat.mul_le_mul_right _ h1
            have hlt2 := totalRow_mul_lt p hcol hpos
            have hmineq : min p.itemCount (p.maxRow * p.col) =
                p.maxRow * p.col := by
              rw [← ham]
              omega
            rw [hcnt, hry, if_neg (by intro h; exact hfin h.1), hmineq,
              ← ham, hA]
            omega
        · -- no break: scroll and continue with the next screen
          have hmn : M = N := by omega
          simp only [hrec, decide_eq_false hbrk]
          rcases hscroll st'.scrolls with hres | hres
          all_goals {
            by_cases hfin : st.scannedRow + M = totalRow p
            · -- the screen scanned the remaining items: next check finishes
              have hsc' : st'.scannedCount = p.itemCount := by
                rw [hcnt', hry, if_pos ⟨hfin, by omega⟩]
                omega
              have hzero : p.itemCount - st'.scannedCount + p.col - 1 <
                  p.col := by omega
              have hinv2 : p.itemCount ≤ p.maxRow * p.col := by
                have h1 : totalRow p * p.col ≤ (p.maxRow - 1) * p.col :=
                  Nat.mul_le_mul_right _ (by omega)
                have h2 := totalRow_mul_ge p hcol
                have h3 : (p.maxRow - 1) * p.col ≤ p.maxRow * p.col :=
                  Nat.mul_le_mul_right _ (by omega)
                omega
              obtain ⟨tr2, hrec2, hcnt2⟩ := ih
                ⟨st'.scannedRow, st'.scannedCount,
                  p.row - min ((p.itemCount - st'.scannedCount + p.col - 1) /
                    p.col) p.row,
                  st'.polls, st'.scrolls + 1, st'.waits⟩
                (Or.inl ⟨hsc', hinv2⟩) (by dsimp only; omega)
              rw [hres]
              dsimp only
              rw [hrec2]
              refine ⟨_, rfl, ?_⟩
              rw [countYields, List.countP_append, List.countP_cons]
              dsimp only at hcnt2
              rw [← countYields, ← countYields, hcnt, hcnt2, hry,
                if_pos ⟨hfin, by omega⟩]
              have hmineq : min p.itemCount (p.maxRow * p.col) =
                  p.itemCount := by omega
              rw [hmineq]
              simp [isYieldEv, hA]
              omega
            · -- more items remain: re-establish the invariant and recurse
              have hamlt : st.scannedRow + M < totalRow p := by omega
              have hsc' : st'.scannedCount =
                  (st.scannedRow + M) * p.col := by
                rw [hcnt', hry, if_neg (by intro h; exact hfin h.1), hA,
                  hmulm]
              have h1 : st.scannedRow + M ≤ totalRow p - 1 := by omega
              have h2 : (st.scannedRow + M) * p.col ≤
                  (totalRow p - 1) * p.col := Nat.mul_le_mul_right _ h1
              have hlt2 := totalRow_mul_lt p hcol hpos
              have hMcol : 0 < M * p.col := Nat.mul_pos (by omega) hcol
              have hsclt : st'.scannedCount < p.itemCount := by omega
              have hNrow : N = p.row := by omega
              have htotbig : p.row + st.scannedRow < totalRow p := by omega
              have hrr : (p.itemCount - st'.scannedCount + p.col - 1) /
                  p.col = totalRow p - (st.scannedRow + M) := by
                rw [hsc']
                exact remainRow_eq p hcol _ (by omega)
              obtain ⟨tr2, hrec2, hcnt2⟩ := ih
                ⟨st'.scannedRow, st'.scannedCount,
                  p.row - min ((p.itemCount - st'.scannedCount + p.col - 1) /
                    p.col) p.row,
                  st'.polls, st'.scrolls + 1, st'.waits⟩
                (by
                  right
                  refine ⟨hsclt, by rw [hsc', hrow'], by dsimp only; omega,
                    ?_⟩
                  dsimp only
                  rw [hrr, hrow']
                  have hminrow : min p.row (totalRow p) = p.row := by omega
                  rw [hminrow]
                  omega)
                (by dsimp only; omega)
              rw [hres]
              dsimp only
              rw [hrec2]
              refine ⟨_, rfl, ?_⟩
              rw [countYields, List.countP_append, List.countP_cons]
              dsimp only at hcnt2
              rw [← countYields, ← countYields, hcnt, hcnt2, hry,
                if_neg (by intro h; exact hfin h.1)]
              have hle1 : st'.scannedCount ≤ p.itemCount := by omega
              have hle2 : st'.scannedCount ≤ p.maxRow * p.col := by
                have h3 : (st.scannedRow + M) * p.col ≤ p.maxRow * p.col :=
                  Nat.mul_le_mul_right _ (by omega)
                omega
              simp [isYieldEv]
              omega
          }

/-- The `'_col` loop never consults the `wait_until_switched` oracle's
result (the coroutine discards it). -/
theorem runCols_wait_indep (p : GenParams) (env : GenEnv) (w : ℕ → Bool)
    (r : ℕ) :
    ∀ (n c : ℕ) (st : GenSt),
      runCols p ⟨env.rmb, env.scroll, w⟩ r n c st =
        runCols p env r n c st := by
  intro n
  induction n with
  | zero => intro c st; rfl
  | succ n ih =>
      intro c st
      rw [runCols_succ, runCols_succ]
      dsimp only
      rw [ih]

/-- The `'_row` loop never consults the wait oracle. -/
theorem runRows_wait_indep (p : GenParams) (env : GenEnv) (w : ℕ → Bool) :
    ∀ (n r : ℕ) (st : GenSt),
      runRows p ⟨env.rmb, env.scroll, w⟩ n r st = runRows p env n r st := by
  intro n
  induction n with
  | zero => intro r st; rfl
  | succ n ih =>
      intro r st
      rcases hcols : runCols p env r
        (if st.scannedRow = totalRow p - 1 then lastRowCol p else p.col) 0 st
        with ⟨tr1, res⟩
      rw [runRows_succ, runRows_succ]
      rw [runCols_wait_indep, hcols]
      cases res with
      | inl e => rfl
      | inr st₂ =>
          dsimp only
          by_cases hbrk : p.maxRow ≤ st₂.scannedRow + 1
          · rw [if_pos hbrk, if_pos hbrk]
          · rw [if_neg hbrk, if_neg hbrk, ih]

/-- The `'outer` loop never consults the wait oracle. -/
theorem runOuter_wait_indep (p : GenParams) (env : GenEnv) (w : ℕ → Bool) :
    ∀ (fuel : ℕ) (st : GenSt),
      runOuter p ⟨env.rmb, env.scroll, w⟩ fuel st = runOuter p env fuel st := by
  intro fuel
  induction fuel with
  | zero => intro st; rfl
  | succ fuel ih =>
      intro st
      by_cases hcond : st.scannedCount < p.itemCount
      · rw [runOuter, runOuter, if_pos hcond, if_pos hcond]
        rcases hrows : runRows p env (min p.row (totalRow p) - st.startRow)
          st.startRow st with ⟨tr1, res⟩
        dsimp only
        rw [runRows_wait_indep, hrows]
        cases res with
        | inl e => rfl
        | inr stb =>
            rcases stb with ⟨st₂, b⟩
            cases b with
            | true => rfl
            | false =>
                dsimp only
                cases hres : env.scroll st₂.scrolls with
                | timeLimitExceeded => rfl
                | interrupt => rfl
                | success => dsimp only; rw [ih]
                | skip => dsimp only; rw [ih]
      · rw [runOuter, runOuter, if_neg hcond, if_neg hcond]

/-- A `scroll_rows` result dispatched by the outer loop is decisive: a
`TimeLimitExceeded` in the trace means the run ended in `Err`, an
`Interrupt` means it ended in `Ok(Interrupted)`. -/
theorem runOuter_scroll_exit (p : GenParams) (env : GenEnv) :
    ∀ (fuel : ℕ) (st : GenSt) (tr : List GenEvent) (e : GenExit),
      runOuter p env fuel st = (tr, e) →
      (∀ r, GenEvent.scrollCall r .timeLimitExceeded ∈ tr → e = .err) ∧
      (∀ r, GenEvent.scrollCall r .interrupt ∈ tr → e = .ok .interrupted) := by
  intro fuel
  induction fuel with
  | zero =>
      intro st tr e h
      rw [runOuter] at h
      obtain ⟨h1, h2⟩ : [] = tr ∧ GenExit.fuelOut = e := by
        cases h; exact ⟨rfl, rfl⟩
      constructor <;> intro r hr <;> rw [← h1] at hr <;>
        exact absurd hr (by simp)
  | succ fuel ih =>
      intro st tr e h
      by_cases hcond : st.scannedCount < p.itemCount
      · rw [runOuter, if_pos hcond] at h
        rcases hrows : runRows p env (min p.row (totalRow p) - st.startRow)
          st.startRow st with ⟨tr1, res⟩
        have hyld : ∀ ev ∈ tr1, isYieldEv ev = true := by
          intro ev hev
          exact runRows_all_yields p env _ _ st ev (by rw [hrows]; exact hev)
        simp only [hrows] at h
        cases res with
        | inl e1 =>
            obtain ⟨h1, h2⟩ : tr1 = tr ∧ e1 = e := by
              cases h; exact ⟨rfl, rfl⟩
            constructor <;> intro r hr <;> rw [← h1] at hr <;>
              exact absurd (hyld _ hr) (by simp [isYieldEv])
        | inr stb =>
            rcases stb with ⟨st₂, b⟩
            cases b with
            | true =>
                obtain ⟨h1, h2⟩ : tr1 = tr ∧ GenExit.ok .finished = e := by
                  cases h; exact ⟨rfl, rfl⟩
                constructor <;> intro r hr <;> rw [← h1] at hr <;>
                  exact absurd (hyld _ hr) (by simp [isYieldEv])
            | false =>
                dsimp only at h
                cases hres : env.scroll st₂.scrolls with
                | timeLimitExceeded =>
                    rw [hres] at h
                    obtain ⟨h1, h2⟩ :
                        tr1 ++ [GenEvent.scrollCall
                          (min ((p.itemCount - st₂.scannedCount + p.col - 1) /
                            p.col) p.row) .timeLimitExceeded] = tr ∧
                        GenExit.err = e := by
                      cases h; exact ⟨rfl, rfl⟩
                    constructor <;> intro r hr <;> rw [← h1] at hr <;>
                      simp only [List.mem_append, List.mem_singleton] at hr
                    · exact h2.symm
                    · rcases hr with hr | hr
                      · exact absurd (hyld _ hr) (by simp [isYieldEv])
                      · exact absurd hr (by simp)
                | interrupt =>
                    rw [hres] at h
                    obtain ⟨h1, h2⟩ :
                        tr1 ++ [GenEvent.scrollCall
                          (min ((p.itemCount - st₂.scannedCount + p.col - 1) /
                            p.col) p.row) .interrupt] = tr ∧
                        GenExit.ok .interrupted = e := by
                      cases h; exact ⟨rfl, rfl⟩
                    constructor <;> intro r hr <;> rw [← h1] at hr <;>
                      simp only [List.mem_append, List.mem_singleton] at hr
                    · rcases hr with hr | hr
                      · exact absurd (hyld _ hr) (by simp [isYieldEv])
                      · exact absurd hr (by simp)
                    · exact h2.symm
                | success =>
                    rw [hres] at h
                    dsimp only at h
                    have h1 := congrArg Prod.fst h
                    have h2 := congrArg Prod.snd h
                    dsimp only at h1 h2
                    constructor <;> intro r hr <;> rw [← h1] at hr <;>
                      simp only [List.mem_append, List.mem_cons] at hr
                    · rcases hr with hr | hr | hr
                      · exact absurd (hyld _ hr) (by simp [isYieldEv])
                      · exact absurd hr (by simp)
                      · rw [← h2]
                        exact (ih _ _ _ rfl).1 r hr
                    · rcases hr with hr | hr | hr
                      · exact absurd (hyld _ hr) (by simp [isYieldEv])
                      · exact absurd hr (by simp)
                      · rw [← h2]
                        exact (ih _ _ _ rfl).2 r hr
                | skip =>
                    rw [hres] at h
                    dsimp only at h
                    have h1 := congrArg Prod.fst h
                    have h2 := congrArg Prod.snd h
                    dsimp only at h1 h2
                    constructor <;> intro r hr <;> rw [← h1] at hr <;>
                      simp only [List.mem_append, List.mem_cons] at hr
                    · rcases hr with hr | hr | hr
                      · exact absurd (hyld _ hr) (by simp [isYieldEv])
                      · exact absurd hr (by simp)
                      · rw [← h2]
                        exact (ih _ _ _ rfl).1 r hr
                    · rcases hr with hr | hr | hr
                      · exact absurd (hyld _ hr) (by simp [isYieldEv])
                      · exact absurd hr (by simp)
                      · rw [← h2]
                        exact (ih _ _ _ rfl).2 r hr
      · rw [runOuter, if_neg hcond] at h
        obtain ⟨h1, h2⟩ : [] = tr ∧ GenExit.ok .finished = e := by
          cases h; exact ⟨rfl, rfl⟩
        constructor <;> intro r hr <;> rw [← h1] at hr <;>
          exact absurd hr (by simp)

/-! ## Claims C1, C7, C8, C10 -/

/-- **C1.** For every `itemCount ≥ 0`, a run of the scan iterator produced
by `get_generator(itemCount)` in which the interrupt poll never fires and
no scroll timeout occurs emits exactly `min(itemCount, maxRow·cols)` yields
and then returns `Finished`.  (The grid configuration is assumed sane —
`cols`, `rows` and `maxRow` positive — and the fuel exceeds `itemCount`,
which bounds the number of outer-loop iterations.) -/
theorem scan_iterator_clean_run (p : GenParams) (env : GenEnv)
    (hcol : 0 < p.col) (hrow : 0 < p.row) (hmax : 0 < p.maxRow)
    (hrmb : ∀ k, env.rmb k = false)
    (hscroll : ∀ i, env.scroll i = .success ∨ env.scroll i = .skip)
    (fuel : ℕ) (hfuel : p.itemCount < fuel) :
    ∃ tr, runGen p env fuel = (tr, .ok .finished) ∧
      countYields tr = min p.itemCount (p.maxRow * p.col) := by
  have hinv : initSt.scannedCount = p.itemCount ∧
      p.itemCount ≤ p.maxRow * p.col ∨
      initSt.scannedCount < p.itemCount ∧
      initSt.scannedCount = initSt.scannedRow * p.col ∧
      initSt.scannedRow < p.maxRow ∧
      min p.row (totalRow p) - initSt.startRow =
        min (totalRow p - initSt.scannedRow) p.row := by
    rcases Nat.eq_zero_or_pos p.itemCount with h0 | hpos
    · exact Or.inl ⟨by simp [initSt, h0], by omega⟩
    · refine Or.inr ⟨by simpa [initSt] using hpos, by simp [initSt],
        by simpa [initSt] using hmax, ?_⟩
      simp [initSt]
      omega
  obtain ⟨tr, h1, h2⟩ := runOuter_clean p env hrmb hscroll hcol hrow hmax
    fuel initSt hinv (by simp [initSt]; omega)
  exact ⟨tr, h1, by simpa [initSt] using h2⟩

/-- Witness for C1 at `itemCount = 27`, `cols = 5`, `rows = 4`,
`maxRow = 1000`. -/
theorem scan_iterator_clean_run_witness :
    ∃ tr, runGen ⟨27, 5, 4, 1000⟩
        ⟨fun _ => false, fun _ => .success, fun _ => true⟩ 28 =
        (tr, .ok .finished) ∧
      countYields tr = min 27 (1000 * 5) :=
  scan_iterator_clean_run ⟨27, 5, 4, 1000⟩
    ⟨fun _ => false, fun _ => .success, fun _ => true⟩
    (by decide) (by decide) (by decide) (fun _ => rfl)
    (fun _ => Or.inl rfl) 28 (by decide)

/-- **C7.** With `rows = 4`, `cols = 5`, `itemCount = 27`, after the 20
yields of the first screen the controller computes
`remRow = ⌈(27-20)/5⌉ = 2`, `scrollRow = min 2 4 = 2`, scrolls 2 rows, and
resumes at `startRow = 4 - 2 = 2`, yielding the remaining 7 cells
`(2,0)…(3,1)` (followed by a vacuous `scroll_rows(0)` call once all items
are scanned) and returning `Finished`. -/
theorem two_screen_partial_tail :
    runGen ⟨27, 5, 4, 1000⟩
        ⟨fun _ => false, fun _ => .success, fun _ => true⟩ 30 =
      ([.yieldCell 0 0,
        .yieldCell 0 1,
        .yieldCell 0 2,
        .yieldCell 0 3,
        .yieldCell 0 4,
        .yieldCell 1 0,
        .yieldCell 1 1,
        .yieldCell 1 2,
        .yieldCell 1 3,
        .yieldCell 1 4,
        .yieldCell 2 0,
        .yieldCell 2 1,
        .yieldCell 2 2,
        .yieldCell 2 3,
        .yieldCell 2 4,
        .yieldCell 3 0,
        .yieldCell 3 1,
        .yieldCell 3 2,
        .yieldCell 3 3,
        .yieldCell 3 4,
        .scrollCall 2 .success,
        .yieldCell 2 0,
        .yieldCell 2 1,
        .yieldCell 2 2,
        .yieldCell 2 3,
        .yieldCell 2 4,
        .yieldCell 3 0,
        .yieldCell 3 1,
        .scrollCall 0 .success],
       .ok .finished) := by
  rfl

/-- **C8.** A `WaitSwitchTimeout` from `wait_until_switched` is recovered
locally: the coroutine discards the wait result, so the whole run — every
yield and the final value — is unchanged under any wait oracle (the cell is
still yielded and the walk continues, never erroring because of a
switch-wait timeout), whereas a `TimeLimitExceeded` from scrolling makes
the iterator return an error. -/
theorem wait_timeout_recovered_scroll_timeout_fatal (p : GenParams)
    (env : GenEnv) (fuel : ℕ) :
    (∀ w, runGen p ⟨env.rmb, env.scroll, w⟩ fuel = runGen p env fuel) ∧
    (∀ tr e r, runGen p env fuel = (tr, e) →
      GenEvent.scrollCall r .timeLimitExceeded ∈ tr → e = .err) := by
  constructor
  · intro w
    exact runOuter_wait_indep p env w fuel initSt
  · intro tr e r h hm
    exact (runOuter_scroll_exit p env fuel initSt tr e h).1 r hm

/-- Witness for C8: a run whose first `scroll_rows` call times out ends in
`Err`. -/
theorem wait_timeout_recovered_scroll_timeout_fatal_witness :
    GenEvent.scrollCall 2 ScrollResult.timeLimitExceeded ∈
      (runGen ⟨27, 5, 4, 1000⟩
        ⟨fun _ => false, fun _ => .timeLimitExceeded, fun _ => true⟩ 30).1 ∧
    (runGen ⟨27, 5, 4, 1000⟩
        ⟨fun _ => false, fun _ => .timeLimitExceeded, fun _ => true⟩ 30).2 =
      .err :=
  ⟨by decide,
   (wait_timeout_recovered_scroll_timeout_fatal ⟨27, 5, 4, 1000⟩
      ⟨fun _ => false, fun _ => .timeLimitExceeded, fun _ => true⟩ 30).2
     _ _ 2 rfl (by decide)⟩

/-- **C10.** A failed wheel-scroll input call at *any* tick position `m` of
the calibrated batch path of `scroll_rows` (non-mac, `scrolled_rows ≥ 5`)
makes `scroll_rows` return `Interrupt` with the controller state unchanged,
and the scan iterator maps a `scroll_rows` `Interrupt` to the successful
return value `Ok(Interrupted)`, not an error. -/
theorem batch_tick_failure_interrupts (plat : Platform) (env : ScrollEnv)
    (k idx : ℕ) (st : ScrollSt) (gp : GenParams) (genv : GenEnv)
    (fuel : ℕ) :
    (plat ≠ Platform.macos → 5 ≤ st.scrolled_rows →
      ∀ m, m < (estimate_scroll_length st (k : ℤ)).toNat →
        env.tickFail (idx + m) = true →
        (scroll_rows plat env k idx st).result = .interrupt ∧
        (scroll_rows plat env k idx st).st = st) ∧
    (∀ tr e r, runGen gp genv fuel = (tr, e) →
      GenEvent.scrollCall r .interrupt ∈ tr → e = .ok .interrupted) := by
  constructor
  · intro hp h5 m hm hfail
    have hb2 :
        (batchLoop env (estimate_scroll_length st (k : ℤ)).toNat idx).2.1 =
          true :=
      batchLoop_fail env (estimate_scroll_length st (k : ℤ)).toNat idx
        ⟨m, hm, hfail⟩
    rcases hb : batchLoop env (estimate_scroll_length st (k : ℤ)).toNat idx
      with ⟨tr, f, idx'⟩
    rw [hb] at hb2
    dsimp only at hb2
    subst hb2
    have hrun : scroll_rows plat env k idx st = ⟨.interrupt, st, idx', tr⟩ := by
      rw [scroll_rows, if_pos ⟨hp, h5⟩]
      simp only [hb]
    rw [hrun]
    exact ⟨rfl, rfl⟩
  · intro tr e r h hm
    exact (runOuter_scroll_exit gp genv fuel initSt tr e h).2 r hm

/-- Witness for C10: a calibrated batch scroll of 11 ticks whose fourth
tick (position 3) fails returns `Interrupt` with the state unchanged, and a
run whose first `scroll_rows` call is interrupted ends in
`Ok(Interrupted)`. -/
theorem batch_tick_failure_interrupts_witness :
    ((scroll_rows Platform.windows
        ⟨fun _ => false, fun _ => true, fun i => decide (i = 3)⟩ 2 0
        ⟨5, 7⟩).result = .interrupt ∧
      (scroll_rows Platform.windows
        ⟨fun _ => false, fun _ => true, fun i => decide (i = 3)⟩ 2 0
        ⟨5, 7⟩).st = ⟨5, 7⟩) ∧
    (runGen ⟨27, 5, 4, 1000⟩
        ⟨fun _ => false, fun _ => .interrupt, fun _ => true⟩ 30).2 =
      .ok .interrupted :=
  ⟨(batch_tick_failure_interrupts Platform.windows
      ⟨fun _ => false, fun _ => true, fun i => decide (i = 3)⟩ 2 0 ⟨5, 7⟩
      ⟨27, 5, 4, 1000⟩ ⟨fun _ => false, fun _ => .interrupt, fun _ => true⟩
      30).1 (by simp) (by decide) 3
      (by norm_num [estimate_scroll_length, rustRound]) rfl,
   (batch_tick_failure_interrupts Platform.windows
      ⟨fun _ => false, fun _ => true, fun i => decide (i = 3)⟩ 2 0 ⟨5, 7⟩
      ⟨27, 5, 4, 1000⟩ ⟨fun _ => false, fun _ => .interrupt, fun _ => true⟩
      30).2 _ _ 2 rfl (by decide)⟩

end Yas
